import Mathlib

/-!
Verification model of the `s21` container library
(`src/RBTree/s21_rbtree.h`, `src/containers/s21_set.h`,
`src/containers/s21_map.h`, `src/containersplus/s21_multiset.h`).

The C++ code is pointer-based, so the embedding works over an explicit
heap: a list of `Option`al nodes indexed by address.  Allocation appends
a slot, `delete` tombstones a slot.  Every pointer loop from the source
is rendered as a fuel-bounded recursion; exhausted fuel (which in the
C++ corresponds to a non-terminating or undefined-behaviour traversal)
is the `Res.div` outcome, a thrown exception is `Res.exn`, and a normal
return is `Res.ok`.  Comparators are fallible (`Res Bool`), matching the
spec's `ComparatorPanic` error kind; total comparators are lifted with
`liftCmp`.
-/

namespace S21

/-- Error kinds of the library (spec section 7). -/
inductive Err where
  | comparatorPanic
  | invalidIterator
  | keyNotFound
deriving DecidableEq, Repr

/-- Execution outcome: divergence / undefined behaviour, a raised
error, or a normal result. -/
inductive Res (α : Type) where
  | div
  | exn (e : Err)
  | ok (a : α)
deriving DecidableEq, Repr

def Res.bind : Res α → (α → Res β) → Res β
  | .div, _ => .div
  | .exn e, _ => .exn e
  | .ok a, f => f a

instance : Monad Res where
  pure := Res.ok
  bind := Res.bind

/-- Lift an `Option` (pointer read / fuel) into `Res`: a missing value
is undefined behaviour. -/
def Res.ofOption : Option α → Res α
  | none => .div
  | some a => .ok a

/-- Node colors (`enum class Color`). -/
inductive Color where
  | RED
  | BLACK
deriving DecidableEq, Repr

/-- `RBTreeNode<T>`: value, three links, color.  Links are optional
addresses (null pointers are `none`). -/
structure RBNode (α : Type) where
  value : α
  left : Option Nat := none
  right : Option Nat := none
  parent : Option Nat := none
  color : Color := .RED
deriving DecidableEq, Repr

/-- The heap: address-indexed slots.  `none` slots are freed memory. -/
abbrev Heap (α : Type) := List (Option (RBNode α))

def Heap.lookupN (h : Heap α) (a : Nat) : Option (RBNode α) :=
  match h.get? a with
  | some (some nd) => some nd
  | _ => none

/-- Write to an existing slot; writing a missing slot is a no-op (such
writes never occur on the executed paths we prove about). -/
def Heap.modifyN (h : Heap α) (a : Nat) (f : RBNode α → RBNode α) : Heap α :=
  match h.lookupN a with
  | some nd => h.set a (some (f nd))
  | none => h

def Heap.setL (h : Heap α) (a : Nat) (x : Option Nat) : Heap α :=
  h.modifyN a fun nd => { nd with left := x }

def Heap.setR (h : Heap α) (a : Nat) (x : Option Nat) : Heap α :=
  h.modifyN a fun nd => { nd with right := x }

def Heap.setP (h : Heap α) (a : Nat) (x : Option Nat) : Heap α :=
  h.modifyN a fun nd => { nd with parent := x }

def Heap.setC (h : Heap α) (a : Nat) (c : Color) : Heap α :=
  h.modifyN a fun nd => { nd with color := c }

/-- `new Node(...)`: returns the extended heap and the fresh address. -/
def Heap.alloc (h : Heap α) (nd : RBNode α) : Heap α × Nat :=
  (h ++ [some nd], h.length)

/-- `delete node`: tombstone the slot. -/
def Heap.free (h : Heap α) (a : Nat) : Heap α :=
  h.set a none

/-- The tree object (`RBTree<T, Comparator>`): root pointer, the
sentinel end-node address, size, plus an allocation counter recording
how many `new` expressions have executed (used to state the spec's
"without allocating"). -/
structure Tree (α : Type) where
  heap : Heap α
  root : Option Nat
  endN : Nat
  size : Nat
  allocs : Nat
deriving DecidableEq, Repr

/-- The default constructor: a fresh sentinel (black, value
uninitialised — modelled by `default`), null root, size 0. -/
def Tree.mk0 [Inhabited α] : Tree α :=
  { heap := [some { value := default, color := .BLACK }]
    root := none
    endN := 0
    size := 0
    allocs := 1 }

abbrev Cmp (α : Type) := α → α → Res Bool

/-- Lift an infallible boolean comparator. -/
def liftCmp (c : α → α → Bool) : Cmp α := fun a b => .ok (c a b)

def natLt : Cmp Nat := liftCmp (fun a b => a < b)

/-- Iterator: the current node pointer and the stored end-node pointer
(`Iterator<T>` holds `current_node_` and `end_node_`).  Iterators
returned by `insert` carry a null `end_node_` (the one-argument
constructor), iterators from `begin`/`end`/`find` carry the sentinel. -/
structure Iter where
  cur : Option Nat
  endp : Option Nat
deriving DecidableEq, Repr

/-! ### Pointer walks (fuel-bounded loops from the source) -/

/-- `find_min`: walk `left_` links (`while (root->left_)`). -/
def findMinGo (h : Heap α) (a : Nat) : Nat → Res Nat
  | 0 => .div
  | f+1 =>
    match h.lookupN a with
    | none => .div
    | some nd =>
      match nd.left with
      | none => .ok a
      | some l => findMinGo h l f

/-- `find_min(root)`: null root yields the sentinel. -/
def findMin (t : Tree α) (root : Option Nat) : Res Nat :=
  match root with
  | none => .ok t.endN
  | some r => findMinGo t.heap r (t.heap.length + 1)

/-- `find_max`: walk `right_` links while the right child is neither
the sentinel nor null. -/
def findMaxGo (h : Heap α) (endN : Nat) (a : Nat) : Nat → Res Nat
  | 0 => .div
  | f+1 =>
    match h.lookupN a with
    | none => .div
    | some nd =>
      match nd.right with
      | none => .ok a
      | some r => if r = endN then .ok a else findMaxGo h endN r f

def findMax (t : Tree α) (root : Option Nat) : Res Nat :=
  match root with
  | none => .ok t.endN
  | some r => findMaxGo t.heap t.endN r (t.heap.length + 1)

/-- Descend right links (`while (current->right_)`), no sentinel
check — used by `operator--` and the copy constructor's rightmost
walk. -/
def descRightGo (h : Heap α) (a : Nat) : Nat → Res Nat
  | 0 => .div
  | f+1 =>
    match h.lookupN a with
    | none => .div
    | some nd =>
      match nd.right with
      | none => .ok a
      | some r => descRightGo h r f

/-- Descend left links (`while (current_node_->left_)`), used by
`operator++`. -/
def descLeftGo (h : Heap α) (a : Nat) : Nat → Res Nat
  | 0 => .div
  | f+1 =>
    match h.lookupN a with
    | none => .div
    | some nd =>
      match nd.left with
      | none => .ok a
      | some l => descLeftGo h l f

/-- The `operator++` parent climb:
`while (parent && current == parent->right_) { current = parent;
parent = parent->parent_; }`; the result is the final `parent`. -/
def climbGo (h : Heap α) (cur : Nat) : Nat → Res (Option Nat)
  | 0 => .div
  | f+1 =>
    match h.lookupN cur with
    | none => .div
    | some nd =>
      match nd.parent with
      | none => .ok none
      | some p =>
        match h.lookupN p with
        | none => .div
        | some pNd =>
          if pNd.right = some cur then climbGo h p f else .ok (some p)

/-- The `operator--` parent climb (mirror of `climbGo`). -/
def climbLGo (h : Heap α) (cur : Nat) : Nat → Res (Option Nat)
  | 0 => .div
  | f+1 =>
    match h.lookupN cur with
    | none => .div
    | some nd =>
      match nd.parent with
      | none => .ok none
      | some p =>
        match h.lookupN p with
        | none => .div
        | some pNd =>
          if pNd.left = some cur then climbLGo h p f else .ok (some p)

/-! ### Iterator increment / decrement -/

/-- `Iterator::operator++`. -/
def succIt (t : Tree α) (it : Iter) : Res Iter :=
  if it.cur = it.endp then .ok it
  else
    match it.cur with
    | none => .div
    | some a =>
      match t.heap.lookupN a with
      | none => .div
      | some nd =>
        match nd.right with
        | some r =>
          (descLeftGo t.heap r (t.heap.length + 1)).bind fun m =>
            .ok ⟨some m, it.endp⟩
        | none =>
          (climbGo t.heap a (t.heap.length + 1)).bind fun k =>
            match k with
            | some p => .ok ⟨some p, it.endp⟩
            | none => .ok ⟨it.endp, it.endp⟩

/-- `Iterator::operator--`. -/
def predIt (t : Tree α) (it : Iter) : Res Iter :=
  match it.cur with
  | none => .ok ⟨it.endp, it.endp⟩
  | some a =>
    if it.cur = it.endp then
      -- getMaxNode() with node == end_node_: returns end_node_->parent_
      match t.heap.lookupN a with
      | none => .div
      | some e => .ok ⟨e.parent, it.endp⟩
    else
      match t.heap.lookupN a with
      | none => .div
      | some nd =>
        match nd.left with
        | some l =>
          (descRightGo t.heap l (t.heap.length + 1)).bind fun m =>
            .ok ⟨some m, it.endp⟩
        | none =>
          (climbLGo t.heap a (t.heap.length + 1)).bind fun k =>
            match k with
            | some p => .ok ⟨some p, it.endp⟩
            | none => .ok ⟨it.endp, it.endp⟩

/-- `begin()`: `iterator(find_min(root_), endNode_)`. -/
def RBTree.begin (t : Tree α) : Res Iter :=
  (findMin t t.root).bind fun m => .ok ⟨some m, some t.endN⟩

/-- `end()`: `iterator(endNode_, endNode_)`. -/
def RBTree.endIt (t : Tree α) : Iter := ⟨some t.endN, some t.endN⟩

/-! ### Rotations -/

/-- `if (x) x->parent_ = v` — conditionally redirect a parent
pointer. -/
def Heap.setPIf (h : Heap α) (x : Option Nat) (v : Option Nat) : Heap α :=
  match x with
  | some y => h.setP y v
  | none => h

/-- `leftRotate`.  A null right child only prints an error and returns
(the guard at the top of the C++ function). -/
def leftRotate (t : Tree α) (a : Nat) : Res (Tree α) :=
  match t.heap.lookupN a with
  | none => .div
  | some nd =>
    match nd.right with
    | none => .ok t
    | some rc =>
      match t.heap.lookupN rc with
      | none => .div
      | some rcNd =>
        -- node->right_ = rightChild->left_;
        -- if (rightChild->left_) rightChild->left_->parent_ = node
        let h2 := (t.heap.setR a rcNd.left).setPIf rcNd.left (some a)
        -- rightChild->parent_ = node->parent_  (re-read node)
        match h2.lookupN a with
        | none => .div
        | some nda =>
          let h3 := h2.setP rc nda.parent
          match nda.parent with
          | none =>
            .ok { t with heap := (h3.setL rc (some a)).setP a (some rc)
                       , root := some rc }
          | some p =>
            match h3.lookupN p with
            | none => .div
            | some pNd =>
              if pNd.left = some a then
                .ok { t with heap := (((h3.setL p (some rc)).setL rc
                        (some a)).setP a (some rc)) }
              else
                .ok { t with heap := (((h3.setR p (some rc)).setL rc
                        (some a)).setP a (some rc)) }

/-- `rightRotate` (no null guard on the left child in the source; a
null left child is an undefined dereference). -/
def rightRotate (t : Tree α) (a : Nat) : Res (Tree α) :=
  match t.heap.lookupN a with
  | none => .div
  | some nd =>
    match nd.left with
    | none => .div
    | some lc =>
      match t.heap.lookupN lc with
      | none => .div
      | some lcNd =>
        let h2 := (t.heap.setL a lcNd.right).setPIf lcNd.right (some a)
        match h2.lookupN a with
        | none => .div
        | some nda =>
          let h3 := h2.setP lc nda.parent
          match nda.parent with
          | none =>
            .ok { t with heap := (h3.setR lc (some a)).setP a (some lc)
                       , root := some lc }
          | some p =>
            match h3.lookupN p with
            | none => .div
            | some pNd =>
              if pNd.right = some a then
                .ok { t with heap := (((h3.setR p (some lc)).setR lc
                        (some a)).setP a (some lc)) }
              else
                .ok { t with heap := (((h3.setL p (some lc)).setR lc
                        (some a)).setP a (some lc)) }

/-! ### Insertion fix-up -/

/-- One rotate-case of `fixInsert` (black uncle), left-parent side:
possibly `leftRotate(parent)` with `node = parent; parent =
node->parent_`, then `rightRotate(grandparent)` and a color swap of
`parent` and `grandparent`, then `break`. -/
def fixInsRotL (t : Tree α) (a p g : Nat) : Res (Tree α) :=
  (match t.heap.lookupN p with
   | none => Res.div
   | some pNd =>
     if pNd.right = some a then
       (leftRotate t p).bind fun t' =>
         match t'.heap.lookupN p with
         | none => .div
         | some nd' => .ok (t', p, nd'.parent)
     else .ok (t, a, some p)).bind fun st =>
  (rightRotate st.1 g).bind fun t2 =>
  match st.2.2 with
  | none => .div
  | some p1 =>
    match t2.heap.lookupN p1, t2.heap.lookupN g with
    | some pNd2, some gNd2 =>
      .ok { t2 with heap := (t2.heap.setC p1 gNd2.color).setC g pNd2.color }
    | _, _ => .div

/-- Mirror rotate-case (right-parent side). -/
def fixInsRotR (t : Tree α) (a p g : Nat) : Res (Tree α) :=
  (match t.heap.lookupN p with
   | none => Res.div
   | some pNd =>
     if pNd.left = some a then
       (rightRotate t p).bind fun t' =>
         match t'.heap.lookupN p with
         | none => .div
         | some nd' => .ok (t', p, nd'.parent)
     else .ok (t, a, some p)).bind fun st =>
  (leftRotate st.1 g).bind fun t2 =>
  match st.2.2 with
  | none => .div
  | some p1 =>
    match t2.heap.lookupN p1, t2.heap.lookupN g with
    | some pNd2, some gNd2 =>
      .ok { t2 with heap := (t2.heap.setC p1 gNd2.color).setC g pNd2.color }
    | _, _ => .div

/-- The `fixInsert` loop.  The rotate cases `break`; the red-uncle
case recolors and continues from the grandparent. -/
def fixInsertGo (t : Tree α) (a : Nat) : Nat → Res (Tree α)
  | 0 => .div
  | f+1 =>
    if t.root = some a then .ok t
    else
      match t.heap.lookupN a with
      | none => .div
      | some nd =>
        match nd.parent with
        | none => .div
        | some p =>
          match t.heap.lookupN p with
          | none => .div
          | some pNd =>
            if pNd.color ≠ .RED then .ok t
            else
              match pNd.parent with
              | none => .div
              | some g =>
                match t.heap.lookupN g with
                | none => .div
                | some gNd =>
                  if gNd.left = some p then
                    match gNd.right with
                    | some u =>
                      if u = t.endN then fixInsRotL t a p g
                      else
                        match t.heap.lookupN u with
                        | none => .div
                        | some uNd =>
                          if uNd.color = .RED then
                            let h' := ((t.heap.setC p .BLACK).setC u .BLACK).setC g .RED
                            fixInsertGo { t with heap := h' } g f
                          else fixInsRotL t a p g
                    | none => fixInsRotL t a p g
                  else
                    match gNd.left with
                    | some u =>
                      if u = t.endN then fixInsRotR t a p g
                      else
                        match t.heap.lookupN u with
                        | none => .div
                        | some uNd =>
                          if uNd.color = .RED then
                            let h' := ((t.heap.setC p .BLACK).setC u .BLACK).setC g .RED
                            fixInsertGo { t with heap := h' } g f
                          else fixInsRotR t a p g
                    | none => fixInsRotR t a p g

/-- `fixInsert`: the loop followed by `root_->color_ = BLACK`. -/
def fixInsert (t : Tree α) (a : Nat) : Res (Tree α) :=
  (fixInsertGo t a (t.heap.length + 1)).bind fun t' =>
    match t'.root with
    | none => .div
    | some r => .ok { t' with heap := t'.heap.setC r .BLACK }

/-! ### insert / insertNonUniq -/

/-- The unique-insert descent: `.inl a` means an equivalent value was
found at `a`; `.inr parent` means the walk fell off at a null or
sentinel child below `parent`. -/
def insertDesc (h : Heap α) (cmp : Cmp α) (endN : Nat) (v : α) :
    Option Nat → Option Nat → Nat → Res (Sum Nat (Option Nat))
  | _, _, 0 => .div
  | none, parent, _+1 => .ok (.inr parent)
  | some c, parent, f+1 =>
    if c = endN then .ok (.inr parent)
    else
      match h.lookupN c with
      | none => .div
      | some nd =>
        (cmp v nd.value).bind fun lt =>
          if lt then insertDesc h cmp endN v nd.left (some c) f
          else
            (cmp nd.value v).bind fun gt =>
              if gt then insertDesc h cmp endN v nd.right (some c) f
              else .ok (.inl c)

/-- The descent of `insertNonUniq` (no equivalence stop: equal keys go
right). -/
def insertNDesc (h : Heap α) (cmp : Cmp α) (endN : Nat) (v : α) :
    Option Nat → Option Nat → Nat → Res (Option Nat)
  | _, _, 0 => .div
  | none, parent, _+1 => .ok parent
  | some c, parent, f+1 =>
    if c = endN then .ok parent
    else
      match h.lookupN c with
      | none => .div
      | some nd =>
        (cmp v nd.value).bind fun lt =>
          if lt then insertNDesc h cmp endN v nd.left (some c) f
          else insertNDesc h cmp endN v nd.right (some c) f

/-- Link a fresh node below `parent` (the common tail of both inserts):
`newNode->parent_ = parent; if (!parent) root_ = newNode; else if
(comp_(value, parent->value_)) parent->left_ = newNode; else
parent->right_ = newNode;` — note the extra comparator call. -/
def linkNew (cmp : Cmp α) (t : Tree α) (v : α) (newA : Nat)
    (parent : Option Nat) : Tree α × Res Unit :=
  let t1 := { t with heap := t.heap.setP newA parent }
  match parent with
  | none => ({ t1 with root := some newA }, .ok ())
  | some p =>
    match t1.heap.lookupN p with
    | none => (t1, .div)
    | some pNd =>
      match cmp v pNd.value with
      | .ok true => ({ t1 with heap := t1.heap.setL p (some newA) }, .ok ())
      | .ok false => ({ t1 with heap := t1.heap.setR p (some newA) }, .ok ())
      | .exn e => (t1, .exn e)
      | .div => (t1, .div)

/-- The post-`fixInsert` sentinel threading of `insert`:
`if (root_ && endNode_) { maxNode = find_max(root_); if (maxNode &&
maxNode != endNode_) { endNode_->parent_ = maxNode; endNode_->left_ =
nullptr; maxNode->right_ = endNode_; } }`. -/
def threadU (t : Tree α) : Res (Tree α) :=
  match t.root with
  | none => .ok t
  | some r =>
    (findMaxGo t.heap t.endN r (t.heap.length + 1)).bind fun m =>
      if m = t.endN then .ok t
      else
        .ok { t with
              heap := (((t.heap.setP t.endN (some m)).setL t.endN
                none).setR m (some t.endN)) }

/-- The sentinel threading of `insertNonUniq` — the source here omits
the `maxNode != endNode_` guard. -/
def threadN (t : Tree α) : Res (Tree α) :=
  match t.root with
  | none => .ok t
  | some r =>
    (findMaxGo t.heap t.endN r (t.heap.length + 1)).bind fun m =>
      .ok { t with
            heap := (((t.heap.setP t.endN (some m)).setL t.endN
              none).setR m (some t.endN)) }

/-- `RBTree::insert` (unique).  Allocates first; on a duplicate the
new node is deleted and the found position returned with `false`; the
returned iterator is built with the one-argument constructor (null
`end_node_`).  The tree state is returned even when the comparator
raises (the C++ object keeps its state when an exception propagates;
the freshly allocated node is leaked). -/
def RBTree.insert (cmp : Cmp α) (t : Tree α) (v : α) :
    Tree α × Res (Iter × Bool) :=
  let pr := t.heap.alloc { value := v }
  let t0 : Tree α :=
    { t with heap := pr.1, allocs := t.allocs + 1 }
  let newA := pr.2
  match insertDesc t0.heap cmp t0.endN v t0.root none (t0.heap.length + 1) with
  | .div => (t0, .div)
  | .exn e => (t0, .exn e)
  | .ok (.inl found) =>
    ({ t0 with heap := t0.heap.free newA }, .ok (⟨some found, none⟩, false))
  | .ok (.inr parent) =>
    match linkNew cmp t0 v newA parent with
    | (t1, .ok _) =>
      match fixInsert t1 newA with
      | .div => (t1, .div)
      | .exn e => (t1, .exn e)
      | .ok t2 =>
        match threadU t2 with
        | .div => (t2, .div)
        | .exn e => (t2, .exn e)
        | .ok t3 =>
          ({ t3 with size := t3.size + 1 }, .ok (⟨some newA, none⟩, true))
    | (t1, .exn e) => (t1, .exn e)
    | (t1, .div) => (t1, .div)

/-- `RBTree::insertNonUniq`. -/
def RBTree.insertNonUniq (cmp : Cmp α) (t : Tree α) (v : α) :
    Tree α × Res (Iter × Bool) :=
  let pr := t.heap.alloc { value := v }
  let t0 : Tree α :=
    { t with heap := pr.1, allocs := t.allocs + 1 }
  let newA := pr.2
  match insertNDesc t0.heap cmp t0.endN v t0.root none (t0.heap.length + 1) with
  | .div => (t0, .div)
  | .exn e => (t0, .exn e)
  | .ok parent =>
    match linkNew cmp t0 v newA parent with
    | (t1, .ok _) =>
      match fixInsert t1 newA with
      | .div => (t1, .div)
      | .exn e => (t1, .exn e)
      | .ok t2 =>
        match threadN t2 with
        | .div => (t2, .div)
        | .exn e => (t2, .exn e)
        | .ok t3 =>
          ({ t3 with size := t3.size + 1 }, .ok (⟨some newA, none⟩, true))
    | (t1, .exn e) => (t1, .exn e)
    | (t1, .div) => (t1, .div)

/-! ### erase -/

/-- `transplant(u, v)`. -/
def transplant (t : Tree α) (u : Nat) (v : Option Nat) : Res (Tree α) :=
  match t.heap.lookupN u with
  | none => .div
  | some uNd =>
    (match uNd.parent with
     | none => Res.ok { t with root := v }
     | some p =>
       match t.heap.lookupN p with
       | none => Res.div
       | some pNd =>
         if pNd.left = some u then .ok { t with heap := t.heap.setL p v }
         else .ok { t with heap := t.heap.setR p v }).bind fun t1 =>
      match v with
      | none => .ok t1
      | some vA => .ok { t1 with heap := t1.heap.setP vA uNd.parent }

/-- Is this child pointer "black or absent" in the sense of the
`fixErase` tests `(!c || c == endNode_ || c->color_ == BLACK)`? -/
def childBlackE (h : Heap α) (endN : Nat) : Option Nat → Res Bool
  | none => .ok true
  | some c =>
    if c = endN then .ok true
    else
      match h.lookupN c with
      | none => .div
      | some cNd => .ok (cNd.color = .BLACK)

/-- Recolor a child pointer to black if it is a real node
(`if (c && c != endNode_) c->color_ = BLACK`). -/
def blackenChild (h : Heap α) (endN : Nat) : Option Nat → Heap α
  | none => h
  | some c => if c = endN then h else h.setC c .BLACK

/-- One pass of the `fixErase` loop body (after the loop-head guards).
`.inl` is a `break` (the source's commented `DELETE PROBABLY` breaks in
cases 1 and 3), carrying the final tree and the `node` variable;
`.inr` continues the loop with a new `node`. -/
def fixEraseStep (t : Tree α) (a : Nat) :
    Res (Sum (Tree α × Option Nat) (Tree α × Option Nat)) :=
  match t.heap.lookupN a with
  | none => .div
  | some nd =>
    match nd.parent with
    | none => .div
    | some p =>
      match t.heap.lookupN p with
      | none => .div
      | some pNd =>
        if pNd.left = some a then
          match pNd.right with
          | none => .div
          | some s =>
            match t.heap.lookupN s with
            | none => .div
            | some sNd =>
              if sNd.color = .RED then
                -- Case 1 then break
                (leftRotate { t with
                    heap := (t.heap.setC s .BLACK).setC p .RED }
                  p).bind fun t' => .ok (.inl (t', some a))
              else
                (childBlackE t.heap t.endN sNd.left).bind fun lb =>
                (childBlackE t.heap t.endN sNd.right).bind fun rb =>
                if lb && rb then
                  -- Case 2: recolor sibling, move up
                  .ok (.inr ({ t with heap := t.heap.setC s .RED }, some p))
                else
                  if rb then
                    -- Case 3 then break
                    (rightRotate { t with
                        heap := (blackenChild t.heap t.endN
                          sNd.left).setC s .RED } s).bind
                      fun t' => .ok (.inl (t', some a))
                  else
                    -- Case 4: recolor, rotate, node = root_
                    let h1 := (t.heap.setC s pNd.color).setC p .BLACK
                    let h2 := blackenChild h1 t.endN sNd.right
                    (leftRotate { t with heap := h2 } p).bind
                      fun t' => .ok (.inr (t', t'.root))
        else
          match pNd.left with
          | none => .div
          | some s =>
            match t.heap.lookupN s with
            | none => .div
            | some sNd =>
              if sNd.color = .RED then
                (rightRotate { t with
                    heap := (t.heap.setC s .BLACK).setC p .RED }
                  p).bind fun t' => .ok (.inl (t', some a))
              else
                (childBlackE t.heap t.endN sNd.right).bind fun rb =>
                (childBlackE t.heap t.endN sNd.left).bind fun lb =>
                if rb && lb then
                  .ok (.inr ({ t with heap := t.heap.setC s .RED }, some p))
                else
                  if lb then
                    (leftRotate { t with
                        heap := (blackenChild t.heap t.endN
                          sNd.right).setC s .RED } s).bind
                      fun t' => .ok (.inl (t', some a))
                  else
                    let h1 := (t.heap.setC s pNd.color).setC p .BLACK
                    let h2 := blackenChild h1 t.endN sNd.left
                    (rightRotate { t with heap := h2 } p).bind
                      fun t' => .ok (.inr (t', t'.root))

/-- The `fixErase` loop: head guards (`node && node != root_ &&
node->color_ == BLACK`), one body pass, then the loop-tail sentinel
block (`if (node != nullptr && node == endNode_) ...`). -/
def fixEraseGo (t : Tree α) (x : Option Nat) :
    Nat → Res (Tree α × Option Nat)
  | 0 => .div
  | f+1 =>
    match x with
    | none => .ok (t, none)
    | some a =>
      if t.root = some a then .ok (t, some a)
      else
        match t.heap.lookupN a with
        | none => .div
        | some nd =>
          if nd.color ≠ .BLACK then .ok (t, some a)
          else
            (fixEraseStep t a).bind fun st =>
              match st with
              | .inl fin => .ok fin
              | .inr (t', n') =>
                match n' with
                | none => fixEraseGo t' n' f
                | some b =>
                  if b = t'.endN then
                    (findMax t' t'.root).bind fun m =>
                      fixEraseGo
                        { t' with heap := t'.heap.setP t'.endN (some m) } n' f
                  else fixEraseGo t' n' f

/-- `fixErase`: the loop then `if (node) node->color_ = BLACK`. -/
def fixErase (t : Tree α) (x : Option Nat) : Res (Tree α) :=
  (fixEraseGo t x (t.heap.length + 1)).bind fun pr =>
    match pr.2 with
    | none => .ok pr.1
    | some a => .ok { pr.1 with heap := pr.1.heap.setC a .BLACK }

/-- The structural phase of `erase` after the two-child analysis:
returns the tree, the original color of the removed-position node `y`,
and `x` (the replacement child).  Mirrors the source switch on the
children of `nodeToDelete`. -/
def eraseUnlink (t : Tree α) (nodeToDelete : Nat) :
    Res (Tree α × Color × Option Nat) :=
  match t.heap.lookupN nodeToDelete with
  | none => .div
  | some nd =>
    match nd.left, nd.right with
    | none, _ =>
      (transplant t nodeToDelete nd.right).bind fun t1 =>
        .ok (t1, nd.color, nd.right)
    | some _, none =>
      (transplant t nodeToDelete nd.left).bind fun t1 =>
        .ok (t1, nd.color, nd.left)
    | some _, some r =>
      (findMinGo t.heap r (t.heap.length + 1)).bind fun y =>
      match t.heap.lookupN y with
      | none => .div
      | some yNd =>
        let originalColor := yNd.color
        let x := yNd.right
        (if yNd.parent = some nodeToDelete then
           match x with
           | some xa => Res.ok { t with heap := t.heap.setP xa (some y) }
           | none => Res.ok t
         else
           (transplant t y yNd.right).bind fun t1 =>
             -- y->right_ = nodeToDelete->right_ (re-read)
             match t1.heap.lookupN nodeToDelete with
             | none => Res.div
             | some nd1 =>
               let t2 : Tree α := { t1 with heap := t1.heap.setR y nd1.right }
               match nd1.right with
               | some yr => .ok { t2 with heap := t2.heap.setP yr (some y) }
               | none => .ok t2).bind fun t2 =>
        (transplant t2 nodeToDelete (some y)).bind fun t3 =>
        match t3.heap.lookupN nodeToDelete with
        | none => .div
        | some nd3 =>
          let t4 : Tree α := { t3 with heap := t3.heap.setL y nd3.left }
          let t5 : Tree α :=
            match nd3.left with
            | some yl => { t4 with heap := t4.heap.setP yl (some y) }
            | none => t4
          .ok ({ t5 with heap := t5.heap.setC y nd3.color }, originalColor, x)

/-- `RBTree::erase(iterator)`.  A null iterator throws
(`InvalidIterator`); the sentinel position silently returns. -/
def RBTree.erase (t : Tree α) (it : Iter) : Tree α × Res Unit :=
  match it.cur with
  | none => (t, .exn .invalidIterator)
  | some nodeToDelete =>
    if nodeToDelete = t.endN then (t, .ok ())
    else
      match eraseUnlink t nodeToDelete with
      | .div => (t, .div)
      | .exn e => (t, .exn e)
      | .ok (t1, originalColor, x) =>
        match (if originalColor = .BLACK then fixErase t1 x else .ok t1) with
        | .div => (t1, .div)
        | .exn e => (t1, .exn e)
        | .ok t2 =>
          match t2.root with
          | some r =>
            match findMaxGo (t2.heap.free nodeToDelete) t2.endN r
                ((t2.heap.free nodeToDelete).length + 1) with
            | .div => ({ t2 with heap := t2.heap.free nodeToDelete, size := t2.size - 1 }, .div)
            | .exn e => ({ t2 with heap := t2.heap.free nodeToDelete, size := t2.size - 1 }, .exn e)
            | .ok m =>
              ({ t2 with heap := (t2.heap.free nodeToDelete).setP t2.endN (if m = t2.endN then none else some m), size := t2.size - 1 }, .ok ())
          | none =>
            ({ t2 with heap := (t2.heap.free nodeToDelete).setP t2.endN none, size := t2.size - 1 }, .ok ())

/-! ### Search -/

/-- The descent of `find`: `some a` when an equivalent value is found,
`none` when the walk exits at null or the sentinel. -/
def findDesc (h : Heap α) (cmp : Cmp α) (endN : Nat) (key : α) :
    Option Nat → Nat → Res (Option Nat)
  | _, 0 => .div
  | none, _+1 => .ok none
  | some c, f+1 =>
    if c = endN then .ok none
    else
      match h.lookupN c with
      | none => .div
      | some nd =>
        (cmp key nd.value).bind fun lt =>
          if lt then findDesc h cmp endN key nd.left f
          else
            (cmp nd.value key).bind fun gt =>
              if gt then findDesc h cmp endN key nd.right f
              else .ok (some c)

/-- `RBTree::find`: returns `iterator(current, endNode_)` on a hit,
`end()` on a miss. -/
def RBTree.findIt (cmp : Cmp α) (t : Tree α) (key : α) : Res Iter :=
  (findDesc t.heap cmp t.endN key t.root (t.heap.length + 1)).bind fun r =>
    match r with
    | some a => .ok ⟨some a, some t.endN⟩
    | none => .ok (RBTree.endIt t)

/-- `RBTree::contains`: `find(key) != end()` (iterator inequality
compares the node pointers). -/
def RBTree.contains (cmp : Cmp α) (t : Tree α) (key : α) : Res Bool :=
  (RBTree.findIt cmp t key).bind fun it =>
    .ok (it.cur ≠ some t.endN)

/-- The descent of `lower_bound` (`result` tracks the best so far). -/
def lowerDesc (h : Heap α) (cmp : Cmp α) (endN : Nat) (key : α) :
    Option Nat → Option Nat → Nat → Res (Option Nat)
  | _, _, 0 => .div
  | none, acc, _+1 => .ok acc
  | some c, acc, f+1 =>
    if c = endN then .ok acc
    else
      match h.lookupN c with
      | none => .div
      | some nd =>
        (cmp nd.value key).bind fun lt =>
          if lt then lowerDesc h cmp endN key nd.right acc f
          else lowerDesc h cmp endN key nd.left (some c) f

/-- The descent of `upper_bound`. -/
def upperDesc (h : Heap α) (cmp : Cmp α) (endN : Nat) (key : α) :
    Option Nat → Option Nat → Nat → Res (Option Nat)
  | _, _, 0 => .div
  | none, acc, _+1 => .ok acc
  | some c, acc, f+1 =>
    if c = endN then .ok acc
    else
      match h.lookupN c with
      | none => .div
      | some nd =>
        (cmp key nd.value).bind fun lt =>
          if lt then upperDesc h cmp endN key nd.left (some c) f
          else upperDesc h cmp endN key nd.right acc f

/-- `RBTree::lower_bound`. -/
def RBTree.lowerIt (cmp : Cmp α) (t : Tree α) (key : α) : Res Iter :=
  (lowerDesc t.heap cmp t.endN key t.root none (t.heap.length + 1)).bind
    fun r =>
      match r with
      | some a => .ok ⟨some a, some t.endN⟩
      | none => .ok (RBTree.endIt t)

/-- `RBTree::upper_bound`. -/
def RBTree.upperIt (cmp : Cmp α) (t : Tree α) (key : α) : Res Iter :=
  (upperDesc t.heap cmp t.endN key t.root none (t.heap.length + 1)).bind
    fun r =>
      match r with
      | some a => .ok ⟨some a, some t.endN⟩
      | none => .ok (RBTree.endIt t)

/-! ### clear and copy -/

/-- `deleteTree` (post-order; skips the sentinel). -/
def deleteTreeGo (endN : Nat) (h : Heap α) :
    Option Nat → Nat → Res (Heap α)
  | none, _ => .ok h
  | some _, 0 => .div
  | some a, f+1 =>
    if a = endN then .ok h
    else
      match h.lookupN a with
      | none => .div
      | some nd =>
        (deleteTreeGo endN h nd.left f).bind fun h1 =>
        (deleteTreeGo endN h1 nd.right f).bind fun h2 =>
        .ok (h2.free a)

/-- `RBTree::clear`. -/
def RBTree.clear (t : Tree α) : Res (Tree α) :=
  (match t.root with
   | some _ => deleteTreeGo t.endN t.heap t.root (t.heap.length + 1)
   | none => .ok t.heap).bind fun h1 =>
  let h2 := ((h1.setP t.endN none).setL t.endN none).setR t.endN none
  .ok { t with heap := h2, root := none, size := 0 }

/-- `copyTree(otherNode, parentNode)`.  The source guard
`otherNode == this->endNode_` compares a pointer into the *source*
tree with the freshly allocated sentinel of the *destination*; the two
objects are distinct, so the guard never fires and the source's
sentinel node (whose `value_` was left uninitialised, modelled as
`default`) is copied like a regular node. -/
def copyTreeGo [Inhabited α] (src : Heap α) :
    Heap α → Option Nat → Option Nat → Nat → Res (Heap α × Option Nat)
  | dst, none, _, _ => .ok (dst, none)
  | _, some _, _, 0 => .div
  | dst, some a, parent, f+1 =>
    match src.lookupN a with
    | none => .div
    | some nd =>
      let pr := dst.alloc { value := nd.value, parent := parent,
                            color := nd.color }
      (copyTreeGo src pr.1 nd.left (some pr.2) f).bind fun d2 =>
      (copyTreeGo src d2.1 nd.right (some pr.2) f).bind fun d3 =>
      .ok ((d3.1.setL pr.2 d2.2).setR pr.2 d3.2, some pr.2)

/-- The copy constructor `RBTree(const RBTree&)`: fresh sentinel,
`copyTree`, then the rightmost walk reconnecting the sentinel. -/
def Tree.copy [Inhabited α] (other : Tree α) : Res (Tree α) :=
  let dst0 : Heap α := [some { value := default, color := .BLACK }]
  match other.root with
  | none =>
    .ok { heap := dst0, root := none, endN := 0, size := other.size,
          allocs := 1 }
  | some r =>
    (copyTreeGo other.heap dst0 (some r) none
        (other.heap.length + 1)).bind fun d =>
    match d.2 with
    | none => .div
    | some newRoot =>
      (descRightGo d.1 newRoot (d.1.length + 1)).bind fun rm =>
      .ok { heap := (d.1.setR rm (some 0)).setP 0 (some rm),
            root := some newRoot, endN := 0, size := other.size,
            allocs := d.1.length }

/-! ### Observers -/

/-- Collect the values seen when iterating from an iterator until
`it != end()` fails (iterator inequality compares node pointers with
the sentinel). -/
def toIterGo (t : Tree α) : Iter → Nat → Res (List α)
  | _, 0 => .div
  | it, f+1 =>
    if it.cur = some t.endN then .ok []
    else
      match it.cur with
      | none => .div
      | some a =>
        match t.heap.lookupN a with
        | none => .div
        | some nd =>
          (succIt t it).bind fun it' =>
          (toIterGo t it' f).bind fun rest =>
          .ok (nd.value :: rest)

/-- The observable content of a container: the value sequence of a
`begin()`-to-`end()` iteration. -/
def toIterList (t : Tree α) : Res (List α) :=
  (RBTree.begin t).bind fun b => toIterGo t b (t.heap.length + 1)

/-- Black-height check: `none` when a violation (or a garbage link) is
found, `some n` with the common black count otherwise.  The sentinel
and null pointers both count as leaves. -/
def blackHGo (h : Heap α) (endN : Nat) : Option Nat → Nat → Option Nat
  | none, _ => some 1
  | some _, 0 => none
  | some a, f+1 =>
    if a = endN then some 1
    else
      match h.lookupN a with
      | none => none
      | some nd =>
        match blackHGo h endN nd.left f, blackHGo h endN nd.right f with
        | some bl, some br =>
          if bl = br then some (bl + (if nd.color = .BLACK then 1 else 0))
          else none
        | _, _ => none

/-- Is this child black-or-absent for the red-red check? -/
def childIsBlack (h : Heap α) (endN : Nat) : Option Nat → Bool
  | none => true
  | some c =>
    if c = endN then true
    else
      match h.lookupN c with
      | some cNd => cNd.color = .BLACK
      | none => true

/-- No red node has a red child (sentinel and null treated as
leaves). -/
def noRedRedGo (h : Heap α) (endN : Nat) : Option Nat → Nat → Bool
  | none, _ => true
  | some _, 0 => false
  | some a, f+1 =>
    if a = endN then true
    else
      match h.lookupN a with
      | none => false
      | some nd =>
        (if nd.color = .RED then
          childIsBlack h endN nd.left && childIsBlack h endN nd.right
         else true)
        && noRedRedGo h endN nd.left f && noRedRedGo h endN nd.right f

/-- The root (when it is a regular node) is black. -/
def rootBlack (t : Tree α) : Bool :=
  match t.root with
  | none => true
  | some r =>
    if r = t.endN then true
    else
      match t.heap.lookupN r with
      | some nd => nd.color = .BLACK
      | none => false

/-- The color rules of the claim: black root, no red-red edge, equal
black count on every root-to-leaf path. -/
def rbValid (t : Tree α) : Bool :=
  rootBlack t
  && noRedRedGo t.heap t.endN t.root (t.heap.length + 1)
  && (blackHGo t.heap t.endN t.root (t.heap.length + 1)).isSome

/-- Does some regular node have the sentinel as a child (i.e. is the
sentinel reachable from the root via child links when that node is)? -/
def sentinelIsChild (t : Tree α) : Bool :=
  (List.range t.heap.length).any fun a =>
    a ≠ t.endN &&
    match t.heap.lookupN a with
    | some nd => nd.left = some t.endN || nd.right = some t.endN
    | none => false

/-- The sentinel's parent pointer. -/
def sentinelParent (t : Tree α) : Option Nat :=
  match t.heap.lookupN t.endN with
  | some nd => nd.parent
  | none => none

/-! ### Set adapter (`s21_set.h`) -/

/-- `Set::insert`: its internal try/catch re-raises with an empty
rollback list whenever `tree_.insert` throws (the iterator is recorded
only after a successful return), so it forwards the tree insert. -/
def SetC.insert (cmp : Cmp α) (t : Tree α) (v : α) :
    Tree α × Res (Iter × Bool) :=
  RBTree.insert cmp t v

/-- The rollback loop of `insert_many`'s catch block: erase the
recorded iterators in the order they were pushed.  An erase failure
during unwinding would terminate the program (modelled as
divergence). -/
def rollbackGo (t : Tree α) : List Iter → Tree α × Res Unit
  | [] => (t, .ok ())
  | it :: rest =>
    match RBTree.erase t it with
    | (t', .ok _) => rollbackGo t' rest
    | (t', _) => (t', .div)

/-- `Set::insert_many` (variadic fold): each argument goes through
`Set::insert`; `result` records all pairs, `inserted_iterators` the
fresh ones; on a raise the catch erases the recorded iterators and
re-raises. -/
def SetC.insertManyGo (cmp : Cmp α) :
    Tree α → List α → List (Iter × Bool) → List Iter →
    Tree α × Res (List (Iter × Bool))
  | t, [], res, _ => (t, .ok res.reverse)
  | t, v :: rest, res, ins =>
    match SetC.insert cmp t v with
    | (t', .ok (it, b)) =>
      SetC.insertManyGo cmp t' rest ((it, b) :: res)
        (if b then it :: ins else ins)
    | (t', .exn e) =>
      match rollbackGo t' ins.reverse with
      | (t'', .ok _) => (t'', .exn e)
      | (t'', _) => (t'', .div)
    | (t', .div) => (t', .div)

def SetC.insertMany (cmp : Cmp α) (t : Tree α) (args : List α) :
    Tree α × Res (List (Iter × Bool)) :=
  SetC.insertManyGo cmp t args [] []

/-- `Set::count`: `find(key) != end() ? 1 : 0`. -/
def SetC.count (cmp : Cmp α) (t : Tree α) (k : α) : Res Nat :=
  (RBTree.findIt cmp t k).bind fun it =>
    .ok (if it.cur = some t.endN then 0 else 1)

/-! ### Map adapter (`s21_map.h`) -/

/-- `ValueComparator`: compares pairs by their first components. -/
def mapCmp (c : Cmp K) : Cmp (K × V) := fun p q => c p.1 q.1

/-- `Map::at`: `find(key)`, throw `KeyNotFound` at `end()`, otherwise
the mapped value.  `find` probes with `value_type(key, T())`. -/
def MapC.at [Inhabited V] (cmp : Cmp K) (t : Tree (K × V)) (k : K) :
    Res V :=
  (RBTree.findIt (mapCmp cmp) t (k, default)).bind fun it =>
    if it.cur = some t.endN then .exn .keyNotFound
    else
      match it.cur with
      | none => .div
      | some a =>
        match t.heap.lookupN a with
        | none => .div
        | some nd => .ok nd.value.2

/-- `Map::operator[]`:
`insert(std::make_pair(key, T())).first->second` — the result carries
the iterator (the reference) and the value it designates. -/
def MapC.bracket [Inhabited V] (cmp : Cmp K) (t : Tree (K × V)) (k : K) :
    Tree (K × V) × Res (Iter × V) :=
  match RBTree.insert (mapCmp cmp) t (k, default) with
  | (t', .ok (it, _)) =>
    match it.cur with
    | none => (t', .div)
    | some a =>
      match t'.heap.lookupN a with
      | none => (t', .div)
      | some nd => (t', .ok (it, nd.value.2))
  | (t', .exn e) => (t', .exn e)
  | (t', .div) => (t', .div)

/-- `Map::find` (the adapter wraps the tree find; the ternary
`it != tree_.end() ? it : end()` is the identity on both branches). -/
def MapC.find [Inhabited V] (cmp : Cmp K) (t : Tree (K × V)) (k : K) :
    Res Iter :=
  RBTree.findIt (mapCmp cmp) t (k, default)

/-! ### Multiset adapter (`s21_multiset.h`) -/

/-- `Multiset::insert`: `tree_.insertNonUniq(key).first`. -/
def MsetC.insert (cmp : Cmp α) (t : Tree α) (v : α) : Tree α × Res Iter :=
  match RBTree.insertNonUniq cmp t v with
  | (t', .ok (it, _)) => (t', .ok it)
  | (t', .exn e) => (t', .exn e)
  | (t', .div) => (t', .div)

/-- `Multiset::erase(key)`: find by comparator equivalence, erase only
when the found element is `==`-equal to the key; returns 0 or 1. -/
def MsetC.eraseKey [DecidableEq α] (cmp : Cmp α) (t : Tree α) (k : α) :
    Tree α × Res Nat :=
  match RBTree.findIt cmp t k with
  | .ok it =>
    if it.cur = some t.endN then (t, .ok 0)
    else
      match it.cur with
      | none => (t, .div)
      | some a =>
        match t.heap.lookupN a with
        | none => (t, .div)
        | some nd =>
          if nd.value = k then
            match RBTree.erase t it with
            | (t', .ok _) => (t', .ok 1)
            | (t', .exn e) => (t', .exn e)
            | (t', .div) => (t', .div)
          else (t, .ok 0)
  | .exn e => (t, .exn e)
  | .div => (t, .div)

/-- The loop of `Multiset::erase_all`: walk the whole iteration range,
erase each element that is `==`-equal to the key (post-increment
before erasing), count the removals. -/
def MsetC.eraseAllGo [DecidableEq α] (k : α) :
    Tree α → Iter → Nat → Nat → Tree α × Res Nat
  | t, _, _, 0 => (t, .div)
  | t, it, acc, f+1 =>
    if it.cur = some t.endN then (t, .ok acc)
    else
      match it.cur with
      | none => (t, .div)
      | some a =>
        match t.heap.lookupN a with
        | none => (t, .div)
        | some nd =>
          if nd.value = k then
            match succIt t it with
            | .ok it' =>
              match RBTree.erase t it with
              | (t', .ok _) => MsetC.eraseAllGo k t' it' (acc + 1) f
              | (t', .exn e) => (t', .exn e)
              | (t', .div) => (t', .div)
            | .exn e => (t, .exn e)
            | .div => (t, .div)
          else
            match succIt t it with
            | .ok it' => MsetC.eraseAllGo k t it' acc f
            | .exn e => (t, .exn e)
            | .div => (t, .div)

/-- `Multiset::erase_all(key)`. -/
def MsetC.eraseAll [DecidableEq α] (t : Tree α) (k : α) :
    Tree α × Res Nat :=
  match RBTree.begin t with
  | .ok b => MsetC.eraseAllGo k t b 0 (2 * t.heap.length + 2)
  | .exn e => (t, .exn e)
  | .div => (t, .div)

/-- `std::distance` over the bidirectional iterators: step `first`
until it equals `last` (node-pointer equality). -/
def distGo (t : Tree α) : Iter → Iter → Nat → Res Nat
  | _, _, 0 => .div
  | cur, tgt, f+1 =>
    if cur.cur = tgt.cur then .ok 0
    else
      (succIt t cur).bind fun cur' =>
      (distGo t cur' tgt f).bind fun n => .ok (n + 1)

/-- `Multiset::count`: `std::distance` over `equal_range(key)` =
`(lower_bound(key), upper_bound(key))`. -/
def MsetC.count (cmp : Cmp α) (t : Tree α) (k : α) : Res Nat :=
  (RBTree.lowerIt cmp t k).bind fun lo =>
  (RBTree.upperIt cmp t k).bind fun hi =>
  distGo t lo hi (t.heap.length + 1)

/-! ### Concrete states used as test inputs -/

/-- Insert into a unique tree, keeping only the state. -/
def ins (t : Tree Nat) (v : Nat) : Tree Nat := (RBTree.insert natLt t v).1

/-- `erase(find(k))` on a unique tree, keeping only the state. -/
def eraseKeyU (t : Tree Nat) (k : Nat) : Tree Nat :=
  match RBTree.findIt natLt t k with
  | .ok it => (RBTree.erase t it).1
  | _ => t

/-- The spec's test comparator that raises on the value 42. -/
def c42 : Cmp Nat := fun a b =>
  if a = 42 || b = 42 then .exn .comparatorPanic else .ok (a < b)

/-- A comparator whose equivalence is coarser than `==`: it compares
the tens digits only. -/
def tensCmp : Cmp Nat := liftCmp (fun a b => a / 10 < b / 10)

/-- The unique set `{1,2,3,4}`. -/
def exSet1234 : Tree Nat := ins (ins (ins (ins Tree.mk0 1) 2) 3) 4

/-- `{1,2,3,4}` after `erase(find(1))`. -/
def exSet234 : Tree Nat := eraseKeyU exSet1234 1

/-- The unique set `{10, 20, 30}`. -/
def exSet3 : Tree Nat := ins (ins (ins Tree.mk0 10) 20) 30

/-- The unique set `{1}`. -/
def exSet1 : Tree Nat := ins Tree.mk0 1

/-- The unique set `{1, 2}`. -/
def exSet12 : Tree Nat := ins (ins Tree.mk0 1) 2

/-- The set `{10}` built with the raising comparator (42 never
compared, so nothing raises). -/
def exPre10 : Tree Nat := (RBTree.insert c42 Tree.mk0 10).1

/-- The corrupted state reached by `insert 10; insert 5;
erase(find(10))`: the erase splices the sentinel into the tree in
place of the erased root. -/
def exCorrupt : Tree Nat := eraseKeyU (ins (ins Tree.mk0 10) 5) 10

/-- The multiset `{10, 20, 20, 30}` (four `insertNonUniq`). -/
def exM4 : Tree Nat :=
  ((MsetC.insert natLt
    ((MsetC.insert natLt
      ((MsetC.insert natLt
        ((MsetC.insert natLt Tree.mk0 10).1) 20).1) 20).1) 30).1)

/-- `exM4` after `Multiset::erase(20)`. -/
def exM5 : Tree Nat := (MsetC.eraseKey natLt exM4 20).1

/-- `exM5` after `Multiset::erase_all(20)`. -/
def exM6 : Tree Nat := (MsetC.eraseAll exM5 20).1

/-- Insert into a map of `Nat` keys and values. -/
def insM (t : Tree (Nat × Nat)) (p : Nat × Nat) : Tree (Nat × Nat) :=
  (RBTree.insert (mapCmp natLt) t p).1

/-- The map `{10 ↦ 1, 20 ↦ 2, 30 ↦ 3}` (nodes at addresses 1, 2, 3). -/
def exMap : Tree (Nat × Nat) :=
  insM (insM (insM Tree.mk0 (10, 1)) (20, 2)) (30, 3)

/-- The multiset `{21, 25, 31}` built with the tens comparator. -/
def exW3 : Tree Nat :=
  ((MsetC.insert tensCmp
    ((MsetC.insert tensCmp
      ((MsetC.insert tensCmp Tree.mk0 21).1) 25).1) 31).1)

/-! ### Relations used by the universal theorems -/

/-- The value stored at an address, if the slot is live. -/
def valAt (h : Heap α) (a : Nat) : Option α := (h.lookupN a).map (·.value)

/-- Heap extension: every successful read stays valid and unchanged.
All pointer walks of the model only dereference successful reads, so
they are stable under `ExtendsOn`. -/
def ExtendsOn (h h' : Heap α) : Prop :=
  ∀ a nd, h.lookupN a = some nd → h'.lookupN a = some nd

/-- All values are preserved (links and colors may change). -/
def ValPres (h h' : Heap α) : Prop := ∀ a, valAt h' a = valAt h a

/-- The bookkeeping every balancing helper preserves: sentinel
address, size, allocation count, heap length, and every stored
value. -/
def Keeps (t t' : Tree α) : Prop :=
  t'.endN = t.endN ∧ t'.size = t.size ∧ t'.allocs = t.allocs ∧
  t'.heap.length = t.heap.length ∧ ValPres t.heap t'.heap

/-- The left-descent of `operator++` reaches `m` within `d` steps and
is insensitive to extra fuel. -/
def DescTo (h : Heap α) (c m d : Nat) : Prop :=
  ∀ g, descLeftGo h c (d + 1 + g) = .ok m

/-- The parent-climb of `operator++` starting at `x` yields `kr`
within `d` steps, insensitive to extra fuel. -/
def ClimbTo (h : Heap α) (x : Nat) (kr : Option Nat) (d : Nat) : Prop :=
  ∀ g, climbGo h x (d + 1 + g) = .ok kr

/-- `SuccStep h endN n x tgt`: the `operator++` computation at node
`x` reaches node `tgt`, with all fuel needs bounded by `n`. -/
def SuccStep (h : Heap α) (endN n x tgt : Nat) : Prop :=
  ∃ nd, h.lookupN x = some nd ∧
    ((∃ c d, nd.right = some c ∧ d ≤ n ∧ DescTo h c tgt d) ∨
     (nd.right = none ∧ ∃ kr d, d ≤ n ∧ ClimbTo h x kr d ∧
        tgt = kr.getD endN))

/-- The in-order successor of position `i` of `l`, with `dflt` for the
last position. -/
def nextA (l : List (Nat × α)) (i : Nat) (dflt : Nat) : Nat :=
  match l[i + 1]? with
  | some pr => pr.1
  | none => dflt

/-- Chain specification: from every position of `l`, `operator++`
moves to the next position (and from the last to `kr`, or the
sentinel when the climb came back empty). -/
def ChainSpec (h : Heap α) (endN n : Nat) (l : List (Nat × α))
    (kr : Option Nat) : Prop :=
  ∀ i x vx, l[i]? = some (x, vx) →
    SuccStep h endN n x (nextA l i (kr.getD endN))

/-- Sentinel threading discipline: a node whose right child is the
sentinel may only be the last listed node, and only when the climb
continuation `kr` is empty (insert threads the sentinel onto the
global maximum only). -/
def ThreadFree (h : Heap α) (endN : Nat) (l : List (Nat × α))
    (kr : Option Nat) : Prop :=
  ∀ pr ∈ l, ∀ ndy, h.lookupN pr.1 = some ndy → ndy.right = some endN →
    kr = none ∧ l.getLast? = some pr

/-- `IsTree h endN p rt l`: the heap fragment rooted at `rt` is a
well-formed binary tree with parent pointers back to `p`, whose
in-order listing of (address, value) pairs is `l`.  A right child
equal to the sentinel is treated as absent (the threading of this
implementation); a left child equal to the sentinel is excluded. -/
inductive IsTree (h : Heap α) (endN : Nat) :
    Option Nat → Option Nat → List (Nat × α) → Prop where
  | nil (p : Option Nat) : IsTree h endN p none []
  | nilEnd (p : Option Nat) : IsTree h endN p (some endN) []
  | node (p : Option Nat) (a : Nat) (nd : RBNode α)
      (L R : List (Nat × α))
      (hnd : h.lookupN a = some nd) (hne : a ≠ endN)
      (hp : nd.parent = p)
      (hle : nd.left ≠ some endN)
      (hL : IsTree h endN (some a) nd.left L)
      (hR : IsTree h endN (some a) nd.right R)
      (haL : ∀ x ∈ L.map Prod.fst, x ≠ a)
      (haR : ∀ x ∈ R.map Prod.fst, x ≠ a)
      (hLR : ∀ x ∈ L.map Prod.fst, x ∉ R.map Prod.fst) :
      IsTree h endN p (some a) (L ++ (a, nd.value) :: R)

/-- A hand-written well-formed tree (sentinel at 0, black root 2 with
red children 1 and 3, the sentinel threaded as the right child of the
maximum 3) used to instantiate the iterator theorems. -/
def exIterTree : Tree Nat :=
  { heap :=
      [some { value := 0, left := none, right := none, parent := some 3,
              color := .BLACK },
       some { value := 1, left := none, right := none, parent := some 2,
              color := .RED },
       some { value := 2, left := some 1, right := some 3, parent := none,
              color := .BLACK },
       some { value := 3, left := none, right := some 0, parent := some 2,
              color := .RED }]
    root := some 2
    endN := 0
    size := 3
    allocs := 4 }

/-! ## Heap lemmas -/

theorem Heap.lookupN_eq_getElem (h : Heap α) (a : Nat) :
    h.lookupN a =
      match h[a]? with
      | some (some nd) => some nd
      | _ => none := by
  simp [Heap.lookupN, List.get?_eq_getElem?]

theorem Heap.lookupN_lt {h : Heap α} {a : Nat} {nd : RBNode α}
    (H : h.lookupN a = some nd) : a < h.length := by
  by_contra hge
  rw [Heap.lookupN_eq_getElem,
    List.getElem?_eq_none (Nat.le_of_not_lt hge)] at H
  simp at H

theorem Heap.lookupN_modifyN (h : Heap α) (a b : Nat)
    (f : RBNode α → RBNode α) :
    (h.modifyN a f).lookupN b =
      if b = a then (h.lookupN a).map f else h.lookupN b := by
  unfold Heap.modifyN
  cases hla : h.lookupN a with
  | none =>
    by_cases hba : b = a <;> simp [hba, hla]
  | some nd =>
    by_cases hba : b = a
    · subst hba
      have hlt : b < h.length := Heap.lookupN_lt hla
      rw [Heap.lookupN_eq_getElem, List.getElem?_set_eq_of_lt _ hlt]
      simp [hla]
    · rw [Heap.lookupN_eq_getElem,
        List.getElem?_set_ne (fun hc => hba hc.symm)]
      simp [hba, Heap.lookupN_eq_getElem]

theorem Heap.lookupN_setL (h : Heap α) (a b : Nat) (x : Option Nat) :
    (h.setL a x).lookupN b =
      if b = a then (h.lookupN a).map (fun nd => { nd with left := x })
      else h.lookupN b := Heap.lookupN_modifyN ..

theorem Heap.lookupN_setR (h : Heap α) (a b : Nat) (x : Option Nat) :
    (h.setR a x).lookupN b =
      if b = a then (h.lookupN a).map (fun nd => { nd with right := x })
      else h.lookupN b := Heap.lookupN_modifyN ..

theorem Heap.lookupN_setP (h : Heap α) (a b : Nat) (x : Option Nat) :
    (h.setP a x).lookupN b =
      if b = a then (h.lookupN a).map (fun nd => { nd with parent := x })
      else h.lookupN b := Heap.lookupN_modifyN ..

theorem Heap.lookupN_setC (h : Heap α) (a b : Nat) (c : Color) :
    (h.setC a c).lookupN b =
      if b = a then (h.lookupN a).map (fun nd => { nd with color := c })
      else h.lookupN b := Heap.lookupN_modifyN ..

theorem Heap.length_modifyN (h : Heap α) (a : Nat)
    (f : RBNode α → RBNode α) : (h.modifyN a f).length = h.length := by
  unfold Heap.modifyN
  cases h.lookupN a <;> simp

theorem Heap.length_setL (h : Heap α) (a : Nat) (x : Option Nat) :
    (h.setL a x).length = h.length := Heap.length_modifyN ..

theorem Heap.length_setR (h : Heap α) (a : Nat) (x : Option Nat) :
    (h.setR a x).length = h.length := Heap.length_modifyN ..

theorem Heap.length_setP (h : Heap α) (a : Nat) (x : Option Nat) :
    (h.setP a x).length = h.length := Heap.length_modifyN ..

theorem Heap.length_setC (h : Heap α) (a : Nat) (c : Color) :
    (h.setC a c).length = h.length := Heap.length_modifyN ..

theorem Heap.lookupN_free (h : Heap α) (a b : Nat) :
    (h.free a).lookupN b = if b = a then none else h.lookupN b := by
  unfold Heap.free
  by_cases hba : b = a
  · subst hba
    by_cases hlt : b < h.length
    · rw [Heap.lookupN_eq_getElem, List.getElem?_set_eq_of_lt _ hlt]
      simp
    · rw [Heap.lookupN_eq_getElem,
        List.getElem?_eq_none (by simpa using Nat.le_of_not_lt hlt)]
      simp
  · rw [Heap.lookupN_eq_getElem,
      List.getElem?_set_ne (fun hc => hba hc.symm)]
    simp [hba, Heap.lookupN_eq_getElem]

theorem Heap.length_free (h : Heap α) (a : Nat) :
    (h.free a).length = h.length := by
  unfold Heap.free; simp

theorem Heap.lookupN_append (h : Heap α) (x : Option (RBNode α)) (b : Nat) :
    (h ++ [x]).lookupN b = if b = h.length then
      (match x with | some nd => some nd | none => none)
    else h.lookupN b := by
  by_cases hb : b = h.length
  · subst hb
    rw [Heap.lookupN_eq_getElem, List.getElem?_concat_length]
    simp only [if_pos rfl]
    cases x <;> rfl
  · by_cases hlt : b < h.length
    · rw [Heap.lookupN_eq_getElem, List.getElem?_append]
      simp [hlt, hb, Heap.lookupN_eq_getElem]
    · have h1 : (h ++ [x])[b]? = none := by
        apply List.getElem?_eq_none
        simp only [List.length_append, List.length_singleton]
        omega
      have h2 : h[b]? = none := List.getElem?_eq_none (Nat.le_of_not_lt hlt)
      rw [Heap.lookupN_eq_getElem, h1]
      simp [hb, Heap.lookupN_eq_getElem, h2]

/-- Values after any link/color write. -/
theorem valAt_modifyN_of_value (h : Heap α) (a b : Nat)
    (f : RBNode α → RBNode α) (hf : ∀ nd, (f nd).value = nd.value) :
    valAt (h.modifyN a f) b = valAt h b := by
  unfold valAt
  rw [Heap.lookupN_modifyN]
  by_cases hba : b = a
  · subst hba
    cases h.lookupN b <;> simp [hf]
  · simp [hba]

theorem valAt_setL (h : Heap α) (a b : Nat) (x : Option Nat) :
    valAt (h.setL a x) b = valAt h b :=
  valAt_modifyN_of_value _ _ _ _ (fun _ => rfl)

theorem valAt_setR (h : Heap α) (a b : Nat) (x : Option Nat) :
    valAt (h.setR a x) b = valAt h b :=
  valAt_modifyN_of_value _ _ _ _ (fun _ => rfl)

theorem valAt_setP (h : Heap α) (a b : Nat) (x : Option Nat) :
    valAt (h.setP a x) b = valAt h b :=
  valAt_modifyN_of_value _ _ _ _ (fun _ => rfl)

theorem valAt_setC (h : Heap α) (a b : Nat) (c : Color) :
    valAt (h.setC a c) b = valAt h b :=
  valAt_modifyN_of_value _ _ _ _ (fun _ => rfl)

theorem valAt_free (h : Heap α) (a b : Nat) :
    valAt (h.free a) b = if b = a then none else valAt h b := by
  unfold valAt
  rw [Heap.lookupN_free]
  by_cases hba : b = a <;> simp [hba]

theorem valPres_refl (h : Heap α) : ValPres h h := fun _ => rfl

theorem valPres_trans {h1 h2 h3 : Heap α} (a : ValPres h1 h2)
    (b : ValPres h2 h3) : ValPres h1 h3 := fun x => (b x).trans (a x)

theorem ValPres.setL (h : Heap α) (a : Nat) (x : Option Nat) :
    ValPres h (h.setL a x) := fun _ => valAt_setL ..

theorem ValPres.setR (h : Heap α) (a : Nat) (x : Option Nat) :
    ValPres h (h.setR a x) := fun _ => valAt_setR ..

theorem ValPres.setP (h : Heap α) (a : Nat) (x : Option Nat) :
    ValPres h (h.setP a x) := fun _ => valAt_setP ..

theorem ValPres.setC (h : Heap α) (a : Nat) (c : Color) :
    ValPres h (h.setC a c) := fun _ => valAt_setC ..

theorem Keeps.refl (t : Tree α) : Keeps t t :=
  ⟨rfl, rfl, rfl, rfl, valPres_refl _⟩

theorem Keeps.trans {t1 t2 t3 : Tree α} (a : Keeps t1 t2)
    (b : Keeps t2 t3) : Keeps t1 t3 :=
  ⟨b.1.trans a.1, b.2.1.trans a.2.1, b.2.2.1.trans a.2.2.1,
   b.2.2.2.1.trans a.2.2.2.1, valPres_trans a.2.2.2.2 b.2.2.2.2⟩

theorem Heap.length_setPIf (h : Heap α) (x v : Option Nat) :
    (h.setPIf x v).length = h.length := by
  unfold Heap.setPIf
  cases x <;> simp [Heap.length_setP]

theorem valAt_setPIf (h : Heap α) (x v : Option Nat) (b : Nat) :
    valAt (h.setPIf x v) b = valAt h b := by
  unfold Heap.setPIf
  cases x <;> simp [valAt_setP]

theorem Keeps.of_heapRoot {t : Tree α} {h' : Heap α} {r' : Option Nat}
    (hlen : h'.length = t.heap.length) (hv : ValPres t.heap h') :
    Keeps t { t with heap := h', root := r' } := ⟨rfl, rfl, rfl, hlen, hv⟩

theorem Keeps.of_heap {t : Tree α} {h' : Heap α}
    (hlen : h'.length = t.heap.length) (hv : ValPres t.heap h') :
    Keeps t { t with heap := h' } := ⟨rfl, rfl, rfl, hlen, hv⟩

theorem leftRotate_keeps {t t' : Tree α} {a : Nat}
    (H : leftRotate t a = .ok t') : Keeps t t' := by
  simp only [leftRotate] at H
  repeat'
    first
    | exact Res.noConfusion H
    | split at H
  all_goals injection H with H
  all_goals subst H
  all_goals
    first
    | exact Keeps.refl t
    | exact ⟨rfl, rfl, rfl,
        by simp [Heap.length_setL, Heap.length_setR, Heap.length_setP,
          Heap.length_setC, Heap.length_setPIf],
        fun b => by
          simp [valAt_setL, valAt_setR, valAt_setP, valAt_setC,
            valAt_setPIf]⟩

theorem Res.bind_eq_ok {x : Res β} {f : β → Res γ} {c : γ} :
    x.bind f = .ok c ↔ ∃ b, x = .ok b ∧ f b = .ok c := by
  cases x <;> simp [Res.bind]

theorem rightRotate_keeps {t t' : Tree α} {a : Nat}
    (H : rightRotate t a = .ok t') : Keeps t t' := by
  simp only [rightRotate] at H
  repeat'
    first
    | exact Res.noConfusion H
    | split at H
  all_goals injection H with H
  all_goals subst H
  all_goals
    first
    | exact Keeps.refl t
    | exact ⟨rfl, rfl, rfl,
        by simp [Heap.length_setL, Heap.length_setR, Heap.length_setP,
          Heap.length_setC, Heap.length_setPIf],
        fun b => by
          simp [valAt_setL, valAt_setR, valAt_setP, valAt_setC,
            valAt_setPIf]⟩

theorem setC_keeps (t : Tree α) (x : Nat) (c : Color) :
    Keeps t { t with heap := t.heap.setC x c } :=
  ⟨rfl, rfl, rfl, Heap.length_setC .., fun _ => valAt_setC ..⟩

theorem setC2_keeps (t : Tree α) (x y : Nat) (c d : Color) :
    Keeps t { t with heap := (t.heap.setC x c).setC y d } :=
  ⟨rfl, rfl, rfl,
   by simp [Heap.length_setC],
   fun _ => by simp [valAt_setC]⟩

theorem fixInsRotL_keeps {t t' : Tree α} {a p g : Nat}
    (H : fixInsRotL t a p g = .ok t') : Keeps t t' := by
  unfold fixInsRotL at H
  rw [Res.bind_eq_ok] at H
  obtain ⟨st, h1, H⟩ := H
  rw [Res.bind_eq_ok] at H
  obtain ⟨t2, h2, H⟩ := H
  have k2 : Keeps st.1 t2 := rightRotate_keeps h2
  have k1 : Keeps t st.1 := by
    split at h1
    · exact Res.noConfusion h1
    · split at h1
      · rw [Res.bind_eq_ok] at h1
        obtain ⟨t1, hl, h1⟩ := h1
        have kl := leftRotate_keeps hl
        split at h1
        · exact Res.noConfusion h1
        · injection h1 with h1
          subst h1
          exact kl
      · injection h1 with h1
        subst h1
        exact Keeps.refl t
  have k3 : Keeps t2 t' := by
    split at H
    · exact Res.noConfusion H
    · split at H
      all_goals
        first
        | exact Res.noConfusion H
        | (injection H with H; subst H; exact setC2_keeps ..)
  exact (k1.trans k2).trans k3

theorem fixInsRotR_keeps {t t' : Tree α} {a p g : Nat}
    (H : fixInsRotR t a p g = .ok t') : Keeps t t' := by
  unfold fixInsRotR at H
  rw [Res.bind_eq_ok] at H
  obtain ⟨st, h1, H⟩ := H
  rw [Res.bind_eq_ok] at H
  obtain ⟨t2, h2, H⟩ := H
  have k2 : Keeps st.1 t2 := leftRotate_keeps h2
  have k1 : Keeps t st.1 := by
    split at h1
    · exact Res.noConfusion h1
    · split at h1
      · rw [Res.bind_eq_ok] at h1
        obtain ⟨t1, hl, h1⟩ := h1
        have kl := rightRotate_keeps hl
        split at h1
        · exact Res.noConfusion h1
        · injection h1 with h1
          subst h1
          exact kl
      · injection h1 with h1
        subst h1
        exact Keeps.refl t
  have k3 : Keeps t2 t' := by
    split at H
    · exact Res.noConfusion H
    · split at H
      all_goals
        first
        | exact Res.noConfusion H
        | (injection H with H; subst H; exact setC2_keeps ..)
  exact (k1.trans k2).trans k3

theorem setC3_keeps (t : Tree α) (x y z : Nat) (c d e : Color) :
    Keeps t { t with heap := ((t.heap.setC x c).setC y d).setC z e } :=
  ⟨rfl, rfl, rfl,
   by simp [Heap.length_setC],
   fun _ => by simp [valAt_setC]⟩

theorem fixInsertGo_keeps {f : Nat} :
    ∀ {t t' : Tree α} {a : Nat}, fixInsertGo t a f = .ok t' →
      Keeps t t' := by
  induction f with
  | zero => intro t t' a H; exact Res.noConfusion H
  | succ f ih =>
    intro t t' a H
    unfold fixInsertGo at H
    split at H
    · injection H with H; subst H; exact Keeps.refl t
    · split at H
      · exact Res.noConfusion H
      · split at H
        · exact Res.noConfusion H
        · split at H
          · exact Res.noConfusion H
          · split at H
            · injection H with H; subst H; exact Keeps.refl t
            · split at H
              · exact Res.noConfusion H
              · split at H
                · exact Res.noConfusion H
                · split at H
                  · -- left-parent side
                    split at H
                    · -- uncle pointer is some u
                      split at H
                      · exact fixInsRotL_keeps H
                      · split at H
                        · exact Res.noConfusion H
                        · split at H
                          · exact Keeps.trans (setC3_keeps ..) (ih H)
                          · exact fixInsRotL_keeps H
                    · exact fixInsRotL_keeps H
                  · -- right-parent side
                    split at H
                    · split at H
                      · exact fixInsRotR_keeps H
                      · split at H
                        · exact Res.noConfusion H
                        · split at H
                          · exact Keeps.trans (setC3_keeps ..) (ih H)
                          · exact fixInsRotR_keeps H
                    · exact fixInsRotR_keeps H

theorem fixInsert_keeps {t t' : Tree α} {a : Nat}
    (H : fixInsert t a = .ok t') : Keeps t t' := by
  unfold fixInsert at H
  rw [Res.bind_eq_ok] at H
  obtain ⟨t1, h1, H⟩ := H
  have k1 : Keeps t t1 := fixInsertGo_keeps h1
  split at H
  · exact Res.noConfusion H
  · injection H with H
    subst H
    exact k1.trans (setC_keeps ..)

theorem threadU_keeps {t t' : Tree α} (H : threadU t = .ok t') :
    Keeps t t' := by
  unfold threadU at H
  split at H
  · injection H with H; subst H; exact Keeps.refl t
  · rw [Res.bind_eq_ok] at H
    obtain ⟨m, _, H⟩ := H
    split at H
    · injection H with H; subst H; exact Keeps.refl t
    · injection H with H
      subst H
      exact ⟨rfl, rfl, rfl,
        by simp [Heap.length_setP, Heap.length_setL, Heap.length_setR],
        fun _ => by simp [valAt_setP, valAt_setL, valAt_setR]⟩

theorem threadN_keeps {t t' : Tree α} (H : threadN t = .ok t') :
    Keeps t t' := by
  unfold threadN at H
  split at H
  · injection H with H; subst H; exact Keeps.refl t
  · rw [Res.bind_eq_ok] at H
    obtain ⟨m, _, H⟩ := H
    injection H with H
    subst H
    exact ⟨rfl, rfl, rfl,
      by simp [Heap.length_setP, Heap.length_setL, Heap.length_setR],
      fun _ => by simp [valAt_setP, valAt_setL, valAt_setR]⟩

theorem linkNew_keeps (cmp : Cmp α) (t : Tree α) (v : α) (newA : Nat)
    (parent : Option Nat) : Keeps t (linkNew cmp t v newA parent).1 := by
  simp only [linkNew]
  split
  · exact ⟨rfl, rfl, rfl, Heap.length_setP .., fun _ => valAt_setP ..⟩
  · split
    · exact ⟨rfl, rfl, rfl, Heap.length_setP .., fun _ => valAt_setP ..⟩
    · split
      all_goals
        first
        | exact ⟨rfl, rfl, rfl, Heap.length_setP ..,
            fun _ => valAt_setP ..⟩
        | exact ⟨rfl, rfl, rfl,
            by simp [Heap.length_setP, Heap.length_setL, Heap.length_setR],
            fun _ => by simp [valAt_setP, valAt_setL, valAt_setR]⟩

theorem transplant_keeps {t t' : Tree α} {u : Nat} {v : Option Nat}
    (H : transplant t u v = .ok t') : Keeps t t' := by
  unfold transplant at H
  split at H
  · exact Res.noConfusion H
  · rw [Res.bind_eq_ok] at H
    obtain ⟨t1, h1, H⟩ := H
    have k1 : Keeps t t1 := by
      split at h1
      · injection h1 with h1; subst h1; exact ⟨rfl, rfl, rfl, rfl,
          valPres_refl _⟩
      · split at h1
        · exact Res.noConfusion h1
        · split at h1
          all_goals injection h1 with h1
          all_goals subst h1
          · exact ⟨rfl, rfl, rfl, Heap.length_setL ..,
              fun _ => valAt_setL ..⟩
          · exact ⟨rfl, rfl, rfl, Heap.length_setR ..,
              fun _ => valAt_setR ..⟩
    have k2 : Keeps t1 t' := by
      split at H
      · injection H with H; subst H; exact Keeps.refl t1
      · injection H with H; subst H
        exact ⟨rfl, rfl, rfl, Heap.length_setP .., fun _ => valAt_setP ..⟩
    exact k1.trans k2

theorem Heap.length_blackenChild (h : Heap α) (endN : Nat)
    (x : Option Nat) : (blackenChild h endN x).length = h.length := by
  unfold blackenChild
  rcases x with _ | c
  · rfl
  · by_cases hc : c = endN <;> simp [hc, Heap.length_setC]

theorem valAt_blackenChild (h : Heap α) (endN : Nat) (x : Option Nat)
    (b : Nat) : valAt (blackenChild h endN x) b = valAt h b := by
  unfold blackenChild
  rcases x with _ | c
  · rfl
  · by_cases hc : c = endN <;> simp [hc, valAt_setC]

/-- The tree carried by either outcome of the loop body. -/
def stepTree : Sum (Tree α × Option Nat) (Tree α × Option Nat) → Tree α
  | .inl pr => pr.1
  | .inr pr => pr.1

theorem recolor_keeps (t : Tree α) (h' : Heap α)
    (hlen : h'.length = t.heap.length) (hv : ValPres t.heap h') :
    Keeps t { t with heap := h' } := ⟨rfl, rfl, rfl, hlen, hv⟩

theorem fixEraseStep_keeps {t : Tree α} {a : Nat}
    {st : Sum (Tree α × Option Nat) (Tree α × Option Nat)}
    (H : fixEraseStep t a = .ok st) : Keeps t (stepTree st) := by
  unfold fixEraseStep at H
  split at H
  · exact Res.noConfusion H
  · split at H
    · exact Res.noConfusion H
    · split at H
      · exact Res.noConfusion H
      · split at H
        · -- node is the left child of its parent
          split at H
          · exact Res.noConfusion H
          · split at H
            · exact Res.noConfusion H
            · split at H
              · -- case 1: red sibling, rotate, break
                rw [Res.bind_eq_ok] at H
                obtain ⟨t1, h1, H⟩ := H
                injection H with H
                subst H
                exact Keeps.trans (setC2_keeps ..) (leftRotate_keeps h1)
              · rw [Res.bind_eq_ok] at H
                obtain ⟨lb, _, H⟩ := H
                rw [Res.bind_eq_ok] at H
                obtain ⟨rb, _, H⟩ := H
                split at H
                · -- case 2: recolor the sibling, move up
                  injection H with H
                  subst H
                  exact setC_keeps ..
                · split at H
                  · -- case 3: rotate the sibling, break
                    rw [Res.bind_eq_ok] at H
                    obtain ⟨t1, h1, H⟩ := H
                    injection H with H
                    subst H
                    refine Keeps.trans (recolor_keeps _ _ ?_ ?_) (rightRotate_keeps h1)
                    · simp [Heap.length_setC, Heap.length_blackenChild]
                    · intro b
                      simp [valAt_setC, valAt_blackenChild]
                  · -- case 4: terminal recolor and rotate
                    rw [Res.bind_eq_ok] at H
                    obtain ⟨t1, h1, H⟩ := H
                    injection H with H
                    subst H
                    refine Keeps.trans (recolor_keeps _ _ ?_ ?_) (leftRotate_keeps h1)
                    · simp [Heap.length_setC, Heap.length_blackenChild]
                    · intro b
                      simp [valAt_setC, valAt_blackenChild]
        · -- mirror side
          split at H
          · exact Res.noConfusion H
          · split at H
            · exact Res.noConfusion H
            · split at H
              · rw [Res.bind_eq_ok] at H
                obtain ⟨t1, h1, H⟩ := H
                injection H with H
                subst H
                exact Keeps.trans (setC2_keeps ..) (rightRotate_keeps h1)
              · rw [Res.bind_eq_ok] at H
                obtain ⟨rb, _, H⟩ := H
                rw [Res.bind_eq_ok] at H
                obtain ⟨lb, _, H⟩ := H
                split at H
                · injection H with H
                  subst H
                  exact setC_keeps ..
                · split at H
                  · rw [Res.bind_eq_ok] at H
                    obtain ⟨t1, h1, H⟩ := H
                    injection H with H
                    subst H
                    refine Keeps.trans (recolor_keeps _ _ ?_ ?_) (leftRotate_keeps h1)
                    · simp [Heap.length_setC, Heap.length_blackenChild]
                    · intro b
                      simp [valAt_setC, valAt_blackenChild]
                  · rw [Res.bind_eq_ok] at H
                    obtain ⟨t1, h1, H⟩ := H
                    injection H with H
                    subst H
                    refine Keeps.trans (recolor_keeps _ _ ?_ ?_) (rightRotate_keeps h1)
                    · simp [Heap.length_setC, Heap.length_blackenChild]
                    · intro b
                      simp [valAt_setC, valAt_blackenChild]

theorem fixEraseGo_keeps {f : Nat} :
    ∀ {t t' : Tree α} {x : Option Nat} {n' : Option Nat},
      fixEraseGo t x f = .ok (t', n') → Keeps t t' := by
  induction f with
  | zero => intro t t' x n' H; exact Res.noConfusion H
  | succ f ih =>
    intro t t' x n' H
    unfold fixEraseGo at H
    split at H
    · injection H with H
      cases H
      exact Keeps.refl t
    · split at H
      · injection H with H
        cases H
        exact Keeps.refl t
      · split at H
        · exact Res.noConfusion H
        · split at H
          · injection H with H
            cases H
            exact Keeps.refl t
          · rw [Res.bind_eq_ok] at H
            obtain ⟨st, hst, H⟩ := H
            have ks := fixEraseStep_keeps hst
            split at H
            · injection H with H
              subst H
              exact ks
            · split at H
              · exact Keeps.trans ks (ih H)
              · split at H
                · rw [Res.bind_eq_ok] at H
                  obtain ⟨m, _, H⟩ := H
                  refine Keeps.trans ks (Keeps.trans ?_ (ih H))
                  exact ⟨rfl, rfl, rfl, Heap.length_setP ..,
                    fun _ => valAt_setP ..⟩
                · exact Keeps.trans ks (ih H)

theorem fixErase_keeps {t t' : Tree α} {x : Option Nat}
    (H : fixErase t x = .ok t') : Keeps t t' := by
  unfold fixErase at H
  rw [Res.bind_eq_ok] at H
  obtain ⟨pr, hpr, H⟩ := H
  have k1 : Keeps t pr.1 := fixEraseGo_keeps (Prod.mk.eta (p := pr) ▸ hpr)
  split at H
  · injection H with H
    subst H
    exact k1
  · injection H with H
    subst H
    exact k1.trans (setC_keeps ..)

theorem eraseUnlink_keeps {t : Tree α} {d : Nat}
    {pr : Tree α × Color × Option Nat}
    (H : eraseUnlink t d = .ok pr) : Keeps t pr.1 := by
  unfold eraseUnlink at H
  split at H
  · exact Res.noConfusion H
  · split at H
    · rw [Res.bind_eq_ok] at H
      obtain ⟨t1, h1, H⟩ := H
      injection H with H
      subst H
      exact transplant_keeps h1
    · rw [Res.bind_eq_ok] at H
      obtain ⟨t1, h1, H⟩ := H
      injection H with H
      subst H
      exact transplant_keeps h1
    · rw [Res.bind_eq_ok] at H
      obtain ⟨y, _, H⟩ := H
      split at H
      · exact Res.noConfusion H
      · rw [Res.bind_eq_ok] at H
        obtain ⟨t2, h2, H⟩ := H
        have k2 : Keeps t t2 := by
          split at h2
          · split at h2
            · injection h2 with h2
              subst h2
              exact ⟨rfl, rfl, rfl, Heap.length_setP ..,
                fun _ => valAt_setP ..⟩
            · injection h2 with h2
              subst h2
              exact Keeps.refl t
          · rw [Res.bind_eq_ok] at h2
            obtain ⟨t1, h1, h2⟩ := h2
            have k1 : Keeps t t1 := transplant_keeps h1
            split at h2
            · exact Res.noConfusion h2
            · split at h2
              · injection h2 with h2
                subst h2
                refine k1.trans ⟨rfl, rfl, rfl, ?_, ?_⟩
                · simp [Heap.length_setR, Heap.length_setP]
                · intro b
                  simp [valAt_setR, valAt_setP]
              · injection h2 with h2
                subst h2
                exact k1.trans ⟨rfl, rfl, rfl, Heap.length_setR ..,
                  fun _ => valAt_setR ..⟩
        rw [Res.bind_eq_ok] at H
        obtain ⟨t3, h3, H⟩ := H
        have k3 : Keeps t2 t3 := transplant_keeps h3
        split at H
        · exact Res.noConfusion H
        · split at H
          all_goals injection H with H
          all_goals subst H
          all_goals
            refine (k2.trans k3).trans ⟨rfl, rfl, rfl, ?_, ?_⟩
          · simp [Heap.length_setL, Heap.length_setP, Heap.length_setC]
          · intro b
            simp [valAt_setL, valAt_setP, valAt_setC]
          · simp [Heap.length_setL, Heap.length_setP, Heap.length_setC]
          · intro b
            simp [valAt_setL, valAt_setP, valAt_setC]

/-- `erase` at a valid position only rewires links: every other
address keeps its value, and the sentinel address, heap length (and
hence iteration fuel) are unchanged. -/
theorem erase_ok_valAt {t t' : Tree α} {it : Iter} {d : Nat}
    (hc : it.cur = some d)
    (H : RBTree.erase t it = (t', .ok ())) :
    t'.endN = t.endN ∧ t'.heap.length = t.heap.length ∧
    ∀ b, b ≠ d → valAt t'.heap b = valAt t.heap b := by
  unfold RBTree.erase at H
  rw [hc] at H
  split at H
  · rename_i x heqSome
    exact Option.noConfusion heqSome
  rename_i x l heqSome
  injection heqSome with heqSome
  subst heqSome
  split at H
  · injection H with H1 H2
    subst H1
    exact ⟨rfl, rfl, fun b _ => rfl⟩
  · split at H
    · injection H with H1 H2
      exact Res.noConfusion H2
    · injection H with H1 H2
      exact Res.noConfusion H2
    · rename_i t1 c x hunl
      have k1 : Keeps t t1 := eraseUnlink_keeps hunl
      split at H
      · injection H with H1 H2
        exact Res.noConfusion H2
      · injection H with H1 H2
        exact Res.noConfusion H2
      · rename_i t2 hfix
        have k2 : Keeps t1 t2 := by
          split at hfix
          · exact fixErase_keeps hfix
          · injection hfix with hfix
            subst hfix
            exact Keeps.refl t1
        have kk : Keeps t t2 := k1.trans k2
        split at H
        · split at H
          · injection H with H1 H2
            exact Res.noConfusion H2
          · injection H with H1 H2
            exact Res.noConfusion H2
          · injection H with H1 H2
            subst H1
            refine ⟨kk.1, ?_, ?_⟩
            · simp [Heap.length_setP, Heap.length_free, kk.2.2.2.1]
            · intro b hb
              rw [valAt_setP, valAt_free, if_neg hb]
              exact kk.2.2.2.2 b
        · injection H with H1 H2
          subst H1
          refine ⟨kk.1, ?_, ?_⟩
          · simp [Heap.length_setP, Heap.length_free, kk.2.2.2.1]
          · intro b hb
            rw [valAt_setP, valAt_free, if_neg hb]
            exact kk.2.2.2.2 b

/-- `Multiset::erase(key)` never removes a value that is not
`==`-equal to the key: every address holding some other value
survives with its value intact. -/
theorem eraseKey_valAt [DecidableEq α] {cmp : Cmp α} {t t' : Tree α}
    {k : α} {n : Nat} (H : MsetC.eraseKey cmp t k = (t', .ok n)) :
    ∀ b v, valAt t.heap b = some v → v ≠ k →
      valAt t'.heap b = some v := by
  unfold MsetC.eraseKey at H
  cases hfind : RBTree.findIt cmp t k with
  | div =>
    rw [hfind] at H
    exact absurd (congrArg Prod.snd H) (by simp)
  | exn e =>
    rw [hfind] at H
    exact absurd (congrArg Prod.snd H) (by simp)
  | ok it =>
    rw [hfind] at H
    dsimp only at H
    by_cases hend : it.cur = some t.endN
    · rw [if_pos hend] at H
      injection H with H1 H2
      subst H1
      exact fun b v hv _ => hv
    · rw [if_neg hend] at H
      cases hcur : it.cur with
      | none =>
        rw [hcur] at H
        exact absurd (congrArg Prod.snd H) (by simp)
      | some a =>
        rw [hcur] at H
        dsimp only at H
        cases hnd : t.heap.lookupN a with
        | none =>
          rw [hnd] at H
          exact absurd (congrArg Prod.snd H) (by simp)
        | some nd =>
          rw [hnd] at H
          dsimp only at H
          by_cases hval : nd.value = k
          · rw [if_pos hval] at H
            cases herase : RBTree.erase t it with
            | mk te r =>
              cases r with
              | div =>
                rw [herase] at H
                exact absurd (congrArg Prod.snd H) (by simp)
              | exn e =>
                rw [herase] at H
                exact absurd (congrArg Prod.snd H) (by simp)
              | ok u =>
                rw [herase] at H
                dsimp only at H
                injection H with H1 H2
                subst H1
                intro b v hv hvk
                have hba : b ≠ a := by
                  intro hba
                  subst hba
                  rw [valAt, hnd] at hv
                  simp at hv
                  exact hvk (hv ▸ hval)
                have hp := erase_ok_valAt hcur herase
                rw [hp.2.2 b hba]
                exact hv
          · rw [if_neg hval] at H
            injection H with H1 H2
            subst H1
            exact fun b v hv _ => hv

/-- `Multiset::erase(key)` removes at most one element. -/
theorem eraseKey_le_one [DecidableEq α] {cmp : Cmp α} {t t' : Tree α}
    {k : α} {n : Nat} (H : MsetC.eraseKey cmp t k = (t', .ok n)) :
    n ≤ 1 := by
  unfold MsetC.eraseKey at H
  cases hfind : RBTree.findIt cmp t k with
  | div =>
    rw [hfind] at H
    exact absurd (congrArg Prod.snd H) (by simp)
  | exn e =>
    rw [hfind] at H
    exact absurd (congrArg Prod.snd H) (by simp)
  | ok it =>
    rw [hfind] at H
    dsimp only at H
    by_cases hend : it.cur = some t.endN
    · rw [if_pos hend] at H
      injection H with H1 H2
      injection H2 with H2
      omega
    · rw [if_neg hend] at H
      cases hcur : it.cur with
      | none =>
        rw [hcur] at H
        exact absurd (congrArg Prod.snd H) (by simp)
      | some a =>
        rw [hcur] at H
        dsimp only at H
        cases hnd : t.heap.lookupN a with
        | none =>
          rw [hnd] at H
          exact absurd (congrArg Prod.snd H) (by simp)
        | some nd =>
          rw [hnd] at H
          dsimp only at H
          by_cases hval : nd.value = k
          · rw [if_pos hval] at H
            cases herase : RBTree.erase t it with
            | mk te r =>
              cases r with
              | div =>
                rw [herase] at H
                exact absurd (congrArg Prod.snd H) (by simp)
              | exn e =>
                rw [herase] at H
                exact absurd (congrArg Prod.snd H) (by simp)
              | ok u =>
                rw [herase] at H
                dsimp only at H
                injection H with H1 H2
                injection H2 with H2
                omega
          · rw [if_neg hval] at H
            injection H with H1 H2
            injection H2 with H2
            omega

/-- When the found node is equivalent but not `==`-equal,
`Multiset::erase(key)` returns 0 and does not change the tree. -/
theorem eraseKey_neq_noop [DecidableEq α] {cmp : Cmp α} {t : Tree α}
    {k : α} {it : Iter} {a : Nat} {nd : RBNode α}
    (hfind : RBTree.findIt cmp t k = .ok it)
    (hend : it.cur ≠ some t.endN) (hcur : it.cur = some a)
    (hnd : t.heap.lookupN a = some nd) (hval : nd.value ≠ k) :
    MsetC.eraseKey cmp t k = (t, .ok 0) := by
  unfold MsetC.eraseKey
  rw [hfind]
  dsimp only
  rw [if_neg hend, hcur]
  dsimp only
  rw [hnd]
  dsimp only
  rw [if_neg hval]

/-- The `erase_all` loop never removes values that are not `==`-equal
to the key. -/
theorem eraseAllGo_valAt [DecidableEq α] {k : α} {f : Nat} :
    ∀ {t t' : Tree α} {it : Iter} {acc n : Nat},
      MsetC.eraseAllGo k t it acc f = (t', .ok n) →
      ∀ b v, valAt t.heap b = some v → v ≠ k →
        valAt t'.heap b = some v := by
  induction f with
  | zero =>
    intro t t' it acc n H
    exact absurd (congrArg Prod.snd H) (by simp [MsetC.eraseAllGo])
  | succ f ih =>
    intro t t' it acc n H
    unfold MsetC.eraseAllGo at H
    by_cases hend : it.cur = some t.endN
    · rw [if_pos hend] at H
      injection H with H1 H2
      subst H1
      exact fun b v hv _ => hv
    · rw [if_neg hend] at H
      cases hcur : it.cur with
      | none =>
        rw [hcur] at H
        exact absurd (congrArg Prod.snd H) (by simp)
      | some a =>
        rw [hcur] at H
        dsimp only at H
        cases hnd : t.heap.lookupN a with
        | none =>
          rw [hnd] at H
          exact absurd (congrArg Prod.snd H) (by simp)
        | some nd =>
          rw [hnd] at H
          dsimp only at H
          by_cases hval : nd.value = k
          · rw [if_pos hval] at H
            cases hsucc : succIt t it with
            | div =>
              rw [hsucc] at H
              exact absurd (congrArg Prod.snd H) (by simp)
            | exn e =>
              rw [hsucc] at H
              exact absurd (congrArg Prod.snd H) (by simp)
            | ok it2 =>
              rw [hsucc] at H
              dsimp only at H
              cases herase : RBTree.erase t it with
              | mk te r =>
                cases r with
                | div =>
                  rw [herase] at H
                  exact absurd (congrArg Prod.snd H) (by simp)
                | exn e =>
                  rw [herase] at H
                  exact absurd (congrArg Prod.snd H) (by simp)
                | ok u =>
                  rw [herase] at H
                  dsimp only at H
                  intro b v hv hvk
                  have hba : b ≠ a := by
                    intro hba
                    subst hba
                    rw [valAt, hnd] at hv
                    simp at hv
                    exact hvk (hv ▸ hval)
                  have hp := erase_ok_valAt hcur herase
                  exact ih H b v (by rw [hp.2.2 b hba]; exact hv) hvk
          · rw [if_neg hval] at H
            cases hsucc : succIt t it with
            | div =>
              rw [hsucc] at H
              exact absurd (congrArg Prod.snd H) (by simp)
            | exn e =>
              rw [hsucc] at H
              exact absurd (congrArg Prod.snd H) (by simp)
            | ok it2 =>
              rw [hsucc] at H
              dsimp only at H
              exact ih H

/-- `Multiset::erase_all` preserves all values not `==`-equal to the
key. -/
theorem eraseAll_valAt [DecidableEq α] {t t' : Tree α} {k : α} {n : Nat}
    (H : MsetC.eraseAll t k = (t', .ok n)) :
    ∀ b v, valAt t.heap b = some v → v ≠ k →
      valAt t'.heap b = some v := by
  unfold MsetC.eraseAll at H
  cases hb : RBTree.begin t with
  | div =>
    rw [hb] at H
    exact absurd (congrArg Prod.snd H) (by simp)
  | exn e =>
    rw [hb] at H
    exact absurd (congrArg Prod.snd H) (by simp)
  | ok b0 =>
    rw [hb] at H
    dsimp only at H
    exact eraseAllGo_valAt H

/-- `find_max` started at a regular node never lands on the sentinel:
the walk stops one step before it. -/
theorem findMaxGo_ne {h : Heap α} {endN : Nat} {f : Nat} :
    ∀ {a m : Nat}, a ≠ endN → findMaxGo h endN a f = .ok m →
      m ≠ endN := by
  induction f with
  | zero => intro a m _ H; exact Res.noConfusion H
  | succ f ih =>
    intro a m ha H
    unfold findMaxGo at H
    split at H
    · exact Res.noConfusion H
    · split at H
      · injection H with H; subst H; exact ha
      · split at H
        · injection H with H; subst H; exact ha
        · exact ih (by assumption) H

/-- The address returned by `find_max` is live. -/
theorem findMaxGo_lookup {h : Heap α} {endN : Nat} {f : Nat} :
    ∀ {a m : Nat}, findMaxGo h endN a f = .ok m →
      ∃ nd, h.lookupN m = some nd := by
  induction f with
  | zero => intro a m H; exact Res.noConfusion H
  | succ f ih =>
    intro a m H
    unfold findMaxGo at H
    split at H
    · exact Res.noConfusion H
    · rename_i nd hnd
      split at H
      · injection H with H; subst H; exact ⟨nd, hnd⟩
      · split at H
        · injection H with H; subst H; exact ⟨nd, hnd⟩
        · exact ih H

/-- Threading the sentinel below the maximum does not change what
`find_max` computes: the walk in the updated heap still ends at `m`. -/
theorem findMaxGo_stable {h : Heap α} {endN m : Nat} (hm : m ≠ endN) :
    ∀ {f a : Nat}, a ≠ endN → findMaxGo h endN a f = .ok m →
      findMaxGo (((h.setP endN (some m)).setL endN none).setR m
        (some endN)) endN a f = .ok m := by
  intro f
  induction f with
  | zero => intro a _ H; exact Res.noConfusion H
  | succ f ih =>
    intro a ha H
    unfold findMaxGo at H ⊢
    cases hnd : h.lookupN a with
    | none => rw [hnd] at H; exact Res.noConfusion H
    | some nd =>
      rw [hnd] at H
      dsimp only at H
      by_cases ham : a = m
      · subst ham
        have hlk : (((h.setP endN (some a)).setL endN none).setR a
            (some endN)).lookupN a =
            some { nd with right := some endN } := by
          rw [Heap.lookupN_setR]
          simp only [if_pos rfl]
          rw [Heap.lookupN_setL, if_neg ha, Heap.lookupN_setP,
            if_neg ha, hnd]
          rfl
        rw [hlk]
        simp
      · have hlk : (((h.setP endN (some m)).setL endN none).setR m
            (some endN)).lookupN a = some nd := by
          rw [Heap.lookupN_setR, if_neg ham, Heap.lookupN_setL,
            if_neg ha, Heap.lookupN_setP, if_neg ha, hnd]
        rw [hlk]
        dsimp only
        cases hr : nd.right with
        | none =>
          rw [hr] at H
          injection H with H
          exact absurd H ham
        | some r =>
          rw [hr] at H
          dsimp only at H
          by_cases hre : r = endN
          · rw [if_pos hre] at H
            injection H with H
            exact absurd H ham
          · rw [if_neg hre] at H
            dsimp only
            rw [if_neg hre]
            exact ih hre H

theorem Keeps.live {t t' : Tree α} (k : Keeps t t') {a : Nat}
    (h : ∃ nd, t.heap.lookupN a = some nd) :
    ∃ nd, t'.heap.lookupN a = some nd := by
  obtain ⟨nd, hnd⟩ := h
  have hv := k.2.2.2.2 a
  rw [valAt, valAt, hnd] at hv
  cases hx : t'.heap.lookupN a with
  | none => rw [hx] at hv; simp at hv
  | some nd' => exact ⟨nd', rfl⟩

theorem fixInsert_root_some {t t' : Tree α} {a : Nat}
    (H : fixInsert t a = .ok t') : ∃ r, t'.root = some r := by
  unfold fixInsert at H
  rw [Res.bind_eq_ok] at H
  obtain ⟨t1, _, H⟩ := H
  split at H
  · exact Res.noConfusion H
  · rename_i r hr
    injection H with H
    subst H
    exact ⟨r, hr⟩

/-- What `threadU` establishes when it actually threads: the
sentinel's parent is the rightmost node `m`, `m`'s right child is the
sentinel, and `find_max` recomputed on the new heap still returns
`m`. -/
theorem threadU_spec {t2 t3 : Tree α} {r : Nat}
    (H : threadU t2 = .ok t3) (hr : t2.root = some r)
    (hrne : r ≠ t2.endN)
    (hlive : ∃ e, t2.heap.lookupN t2.endN = some e) :
    ∃ m, m ≠ t2.endN ∧ sentinelParent t3 = some m ∧
      (∃ nd, t3.heap.lookupN m = some nd ∧ nd.right = some t3.endN) ∧
      findMax t3 t3.root = .ok m ∧ t3.endN = t2.endN ∧
      t3.root = t2.root := by
  unfold threadU at H
  rw [hr] at H
  dsimp only at H
  rw [Res.bind_eq_ok] at H
  obtain ⟨m, hmax, H⟩ := H
  have hmne : m ≠ t2.endN := findMaxGo_ne hrne hmax
  rw [if_neg hmne] at H
  injection H with H
  subst H
  obtain ⟨e, he⟩ := hlive
  obtain ⟨ndm, hndm⟩ := findMaxGo_lookup hmax
  refine ⟨m, hmne, ?_, ?_, ?_, rfl, hr.symm⟩
  · unfold sentinelParent
    dsimp only
    rw [Heap.lookupN_setR, if_neg (fun hc => hmne hc.symm),
      Heap.lookupN_setL, if_pos rfl, Heap.lookupN_setP, if_pos rfl, he]
    rfl
  · refine ⟨{ ndm with right := some t2.endN }, ?_, rfl⟩
    dsimp only
    rw [Heap.lookupN_setR, if_pos rfl, Heap.lookupN_setL, if_neg hmne,
      Heap.lookupN_setP, if_neg hmne, hndm]
    rfl
  · unfold findMax
    dsimp only
    have hlen : (((t2.heap.setP t2.endN (some m)).setL t2.endN
        none).setR m (some t2.endN)).length = t2.heap.length := by
      simp [Heap.length_setP, Heap.length_setL, Heap.length_setR]
    rw [hlen]
    exact findMaxGo_stable hmne hrne hmax

theorem threadU_root {t t' : Tree α} (H : threadU t = .ok t') :
    t'.root = t.root := by
  unfold threadU at H
  split at H
  · injection H with H; subst H; rfl
  · rw [Res.bind_eq_ok] at H
    obtain ⟨m, _, H⟩ := H
    split at H
    · injection H with H; subst H; rfl
    · injection H with H; subst H; rfl

/-- Growing the heap by one slot and freeing that same fresh slot
leaves every lookup unchanged. -/
theorem lookupN_alloc_free (h : Heap α) (nd : RBNode α) (a : Nat) :
    ((h ++ [some nd]).free h.length).lookupN a = h.lookupN a := by
  rw [Heap.lookupN_free]
  by_cases ha : a = h.length
  · subst ha
    rw [if_pos rfl]
    rw [Heap.lookupN_eq_getElem, List.getElem?_eq_none (Nat.le_refl _)]
  · rw [if_neg ha, Heap.lookupN_append, if_neg ha]

theorem extendsOn_append (h : Heap α) (x : Option (RBNode α)) :
    ExtendsOn h (h ++ [x]) := by
  intro a nd hnd
  rw [Heap.lookupN_append,
    if_neg (fun hc => by have := Heap.lookupN_lt hnd; omega)]
  exact hnd

/-- `find`'s descent is stable under heap extension and extra fuel. -/
theorem findDesc_mono {h h' : Heap α} (he : ExtendsOn h h')
    {cmp : Cmp α} {endN : Nat} {key : α} :
    ∀ {f f' : Nat} {cur : Option Nat} {r : Option Nat}, f ≤ f' →
      findDesc h cmp endN key cur f = .ok r →
      findDesc h' cmp endN key cur f' = .ok r := by
  intro f
  induction f with
  | zero =>
    intro f' cur r _ H
    cases cur <;> exact Res.noConfusion H
  | succ f ih =>
    intro f' cur r hle H
    cases f' with
    | zero => omega
    | succ f' =>
      cases cur with
      | none => exact H
      | some c =>
        unfold findDesc at H ⊢
        by_cases hc : c = endN
        · rw [if_pos hc] at H ⊢
          exact H
        · rw [if_neg hc] at H ⊢
          cases hnd : h.lookupN c with
          | none => rw [hnd] at H; exact Res.noConfusion H
          | some nd =>
            rw [hnd] at H
            rw [he c nd hnd]
            dsimp only at H ⊢
            rw [Res.bind_eq_ok] at H
            obtain ⟨lt, hlt, H⟩ := H
            rw [hlt]
            dsimp only [Res.bind]
            cases lt with
            | true =>
              rw [if_pos rfl] at H ⊢
              exact ih (by omega) H
            | false =>
              rw [if_neg (by simp)] at H ⊢
              rw [Res.bind_eq_ok] at H
              obtain ⟨gt, hgt, H⟩ := H
              rw [hgt]
              dsimp only [Res.bind]
              cases gt with
              | true =>
                rw [if_pos rfl] at H ⊢
                exact ih (by omega) H
              | false =>
                rw [if_neg (by simp)] at H ⊢
                exact H

/-- When `find` hits an equivalent value, `insert`'s descent over the
same heap takes exactly the same path and reports the duplicate. -/
theorem findDesc_found_insertDesc {h : Heap α} {cmp : Cmp α}
    {endN : Nat} {v : α} :
    ∀ {f : Nat} {cur : Option Nat} {a : Nat} (par : Option Nat),
      findDesc h cmp endN v cur f = .ok (some a) →
      insertDesc h cmp endN v cur par f = .ok (.inl a) := by
  intro f
  induction f with
  | zero =>
    intro cur a par H
    cases cur <;> exact Res.noConfusion H
  | succ f ih =>
    intro cur a par H
    cases cur with
    | none =>
      unfold findDesc at H
      injection H with H
      exact Option.noConfusion H
    | some c =>
      unfold findDesc at H
      unfold insertDesc
      by_cases hc : c = endN
      · rw [if_pos hc] at H
        injection H with H
        exact Option.noConfusion H
      · rw [if_neg hc] at H ⊢
        cases hnd : h.lookupN c with
        | none => rw [hnd] at H; exact Res.noConfusion H
        | some nd =>
          rw [hnd] at H
          dsimp only at H ⊢
          rw [Res.bind_eq_ok] at H
          obtain ⟨lt, hlt, H⟩ := H
          rw [hlt]
          dsimp only [Res.bind]
          cases lt with
          | true =>
            rw [if_pos rfl] at H ⊢
            exact ih (some c) H
          | false =>
            rw [if_neg (by simp)] at H ⊢
            rw [Res.bind_eq_ok] at H
            obtain ⟨gt, hgt, H⟩ := H
            rw [hgt]
            dsimp only [Res.bind]
            cases gt with
            | true =>
              rw [if_pos rfl] at H ⊢
              exact ih (some c) H
            | false =>
              rw [if_neg (by simp)] at H ⊢
              injection H with H
              injection H with H
              subst H
              rfl

/-- When `find` misses, `insert`'s descent falls off the tree and
reports an insertion point. -/
theorem findDesc_none_insertDesc {h : Heap α} {cmp : Cmp α}
    {endN : Nat} {v : α} :
    ∀ {f : Nat} {cur : Option Nat} (par : Option Nat),
      findDesc h cmp endN v cur f = .ok none →
      ∃ p, insertDesc h cmp endN v cur par f = .ok (.inr p) := by
  intro f
  induction f with
  | zero =>
    intro cur par H
    cases cur <;> exact Res.noConfusion H
  | succ f ih =>
    intro cur par H
    cases cur with
    | none => exact ⟨par, rfl⟩
    | some c =>
      unfold findDesc at H
      unfold insertDesc
      by_cases hc : c = endN
      · rw [if_pos hc] at H ⊢
        exact ⟨par, rfl⟩
      · rw [if_neg hc] at H ⊢
        cases hnd : h.lookupN c with
        | none => rw [hnd] at H; exact Res.noConfusion H
        | some nd =>
          rw [hnd] at H
          dsimp only at H ⊢
          rw [Res.bind_eq_ok] at H
          obtain ⟨lt, hlt, H⟩ := H
          rw [hlt]
          dsimp only [Res.bind]
          cases lt with
          | true =>
            rw [if_pos rfl] at H ⊢
            exact ih (some c) H
          | false =>
            rw [if_neg (by simp)] at H ⊢
            rw [Res.bind_eq_ok] at H
            obtain ⟨gt, hgt, H⟩ := H
            rw [hgt]
            dsimp only [Res.bind]
            cases gt with
            | true =>
              rw [if_pos rfl] at H ⊢
              exact ih (some c) H
            | false =>
              rw [if_neg (by simp)] at H
              injection H with H
              exact Option.noConfusion H

/-- A successful `find` hit names a live non-sentinel node. -/
theorem findDesc_found_lookup {h : Heap α} {cmp : Cmp α} {endN : Nat}
    {key : α} :
    ∀ {f : Nat} {cur : Option Nat} {a : Nat},
      findDesc h cmp endN key cur f = .ok (some a) →
      a ≠ endN ∧ ∃ nd, h.lookupN a = some nd := by
  intro f
  induction f with
  | zero => intro cur a H; cases cur <;> exact Res.noConfusion H
  | succ f ih =>
    intro cur a H
    cases cur with
    | none =>
      unfold findDesc at H
      injection H with H
      exact Option.noConfusion H
    | some c =>
      unfold findDesc at H
      by_cases hc : c = endN
      · rw [if_pos hc] at H
        injection H with H
        exact Option.noConfusion H
      · rw [if_neg hc] at H
        cases hnd : h.lookupN c with
        | none => rw [hnd] at H; exact Res.noConfusion H
        | some nd =>
          rw [hnd] at H
          dsimp only at H
          rw [Res.bind_eq_ok] at H
          obtain ⟨lt, hlt, H⟩ := H
          cases lt with
          | true =>
            rw [if_pos rfl] at H
            exact ih H
          | false =>
            rw [if_neg (by simp)] at H
            rw [Res.bind_eq_ok] at H
            obtain ⟨gt, hgt, H⟩ := H
            cases gt with
            | true =>
              rw [if_pos rfl] at H
              exact ih H
            | false =>
              rw [if_neg (by simp)] at H
              injection H with H
              injection H with H
              subst H
              exact ⟨hc, nd, hnd⟩

/-- `contains = false` means `find` returned the end iterator. -/
theorem contains_false_find {cmp : Cmp α} {t : Tree α} {v : α}
    (H : RBTree.contains cmp t v = .ok false) :
    ∃ it, RBTree.findIt cmp t v = .ok it ∧ it.cur = some t.endN := by
  unfold RBTree.contains at H
  rw [Res.bind_eq_ok] at H
  obtain ⟨it, hit, H⟩ := H
  injection H with H
  refine ⟨it, hit, ?_⟩
  exact not_not.mp (of_decide_eq_false H)

/-- `contains = false` means the `find` descent missed. -/
theorem contains_false_findDesc {cmp : Cmp α} {t : Tree α} {v : α}
    (H : RBTree.contains cmp t v = .ok false) :
    findDesc t.heap cmp t.endN v t.root (t.heap.length + 1) = .ok none := by
  obtain ⟨it, hfind, hcur⟩ := contains_false_find H
  unfold RBTree.findIt at hfind
  rw [Res.bind_eq_ok] at hfind
  obtain ⟨r, hr, hit⟩ := hfind
  cases r with
  | none => exact hr
  | some a =>
    exfalso
    injection hit with hit
    have hac : some a = it.cur := congrArg Iter.cur hit
    rw [hcur] at hac
    injection hac with hac
    exact (findDesc_found_lookup hr).1 hac

/-- The minimum walk is stable under heap extension and extra fuel. -/
theorem findMinGo_mono {h h' : Heap α} (he : ExtendsOn h h') :
    ∀ {f f' : Nat} {a m : Nat}, f ≤ f' →
      findMinGo h a f = .ok m → findMinGo h' a f' = .ok m := by
  intro f
  induction f with
  | zero => intro f' a m _ H; exact Res.noConfusion H
  | succ f ih =>
    intro f' a m hle H
    cases f' with
    | zero => omega
    | succ f' =>
      unfold findMinGo at H ⊢
      cases hnd : h.lookupN a with
      | none => rw [hnd] at H; exact Res.noConfusion H
      | some nd =>
        rw [hnd] at H
        rw [he a nd hnd]
        dsimp only at H ⊢
        cases hl : nd.left with
        | none =>
          rw [hl] at H
          dsimp only at H ⊢
          exact H
        | some l =>
          rw [hl] at H
          dsimp only at H ⊢
          exact ih (by omega) H

/-- The `operator++` left-descent is stable under heap extension. -/
theorem descLeftGo_mono {h h' : Heap α} (he : ExtendsOn h h') :
    ∀ {f f' : Nat} {a m : Nat}, f ≤ f' →
      descLeftGo h a f = .ok m → descLeftGo h' a f' = .ok m := by
  intro f
  induction f with
  | zero => intro f' a m _ H; exact Res.noConfusion H
  | succ f ih =>
    intro f' a m hle H
    cases f' with
    | zero => omega
    | succ f' =>
      unfold descLeftGo at H ⊢
      cases hnd : h.lookupN a with
      | none => rw [hnd] at H; exact Res.noConfusion H
      | some nd =>
        rw [hnd] at H
        rw [he a nd hnd]
        dsimp only at H ⊢
        cases hl : nd.left with
        | none =>
          rw [hl] at H
          dsimp only at H ⊢
          exact H
        | some l =>
          rw [hl] at H
          dsimp only at H ⊢
          exact ih (by omega) H

/-- The `operator++` parent climb is stable under heap extension. -/
theorem climbGo_mono {h h' : Heap α} (he : ExtendsOn h h') :
    ∀ {f f' : Nat} {c : Nat} {r : Option Nat}, f ≤ f' →
      climbGo h c f = .ok r → climbGo h' c f' = .ok r := by
  intro f
  induction f with
  | zero => intro f' c r _ H; exact Res.noConfusion H
  | succ f ih =>
    intro f' c r hle H
    cases f' with
    | zero => omega
    | succ f' =>
      unfold climbGo at H ⊢
      cases hnd : h.lookupN c with
      | none => rw [hnd] at H; exact Res.noConfusion H
      | some nd =>
        rw [hnd] at H
        rw [he c nd hnd]
        dsimp only at H ⊢
        cases hp : nd.parent with
        | none =>
          rw [hp] at H
          dsimp only at H ⊢
          exact H
        | some p =>
          rw [hp] at H
          dsimp only at H ⊢
          cases hpn : h.lookupN p with
          | none => rw [hpn] at H; exact Res.noConfusion H
          | some pNd =>
            rw [hpn] at H
            rw [he p pNd hpn]
            dsimp only at H ⊢
            by_cases hpr : pNd.right = some c
            · rw [if_pos hpr] at H ⊢
              exact ih (by omega) H
            · rw [if_neg hpr] at H ⊢
              exact H

/-- `operator++` is stable under heap extension (the destination tree
supplies at least as much fuel). -/
theorem succIt_mono {t t' : Tree α} (he : ExtendsOn t.heap t'.heap)
    (hlen : t.heap.length ≤ t'.heap.length) {it it' : Iter}
    (H : succIt t it = .ok it') : succIt t' it = .ok it' := by
  unfold succIt at H ⊢
  by_cases hend : it.cur = it.endp
  · rw [if_pos hend] at H ⊢
    exact H
  · rw [if_neg hend] at H ⊢
    cases hcur : it.cur with
    | none => rw [hcur] at H; exact Res.noConfusion H
    | some a =>
      rw [hcur] at H
      dsimp only at H ⊢
      cases hnd : t.heap.lookupN a with
      | none => rw [hnd] at H; exact Res.noConfusion H
      | some nd =>
        rw [hnd] at H
        rw [he a nd hnd]
        dsimp only at H ⊢
        cases hr : nd.right with
        | some r =>
          rw [hr] at H
          dsimp only at H ⊢
          rw [Res.bind_eq_ok] at H
          obtain ⟨m, hm, H⟩ := H
          rw [descLeftGo_mono he (by omega) hm]
          dsimp only [Res.bind]
          exact H
        | none =>
          rw [hr] at H
          dsimp only at H ⊢
          rw [Res.bind_eq_ok] at H
          obtain ⟨k, hk, H⟩ := H
          rw [climbGo_mono he (by omega) hk]
          dsimp only [Res.bind]
          exact H

/-- A full iteration is stable under heap extension (the sentinel
address unchanged). -/
theorem toIterGo_mono {t t' : Tree α} (he : ExtendsOn t.heap t'.heap)
    (hlen : t.heap.length ≤ t'.heap.length) (hend : t'.endN = t.endN) :
    ∀ {f f' : Nat} {it : Iter} {l : List α}, f ≤ f' →
      toIterGo t it f = .ok l → toIterGo t' it f' = .ok l := by
  intro f
  induction f with
  | zero => intro f' it l _ H; exact Res.noConfusion H
  | succ f ih =>
    intro f' it l hle H
    cases f' with
    | zero => omega
    | succ f' =>
      unfold toIterGo at H ⊢
      rw [hend]
      by_cases hc : it.cur = some t.endN
      · rw [if_pos hc] at H ⊢
        exact H
      · rw [if_neg hc] at H ⊢
        cases hcur : it.cur with
        | none => rw [hcur] at H; exact Res.noConfusion H
        | some a =>
          rw [hcur] at H
          dsimp only at H ⊢
          cases hnd : t.heap.lookupN a with
          | none => rw [hnd] at H; exact Res.noConfusion H
          | some nd =>
            rw [hnd] at H
            rw [he a nd hnd]
            dsimp only at H ⊢
            rw [Res.bind_eq_ok] at H
            obtain ⟨it2, hit2, H⟩ := H
            rw [Res.bind_eq_ok] at H
            obtain ⟨rest, hrest, H⟩ := H
            rw [succIt_mono he hlen hit2]
            dsimp only [Res.bind]
            rw [ih (by omega) hrest]
            dsimp only [Res.bind]
            exact H

/-- `begin()`-to-`end()` contents are stable under heap extension when
root and sentinel are unchanged. -/
theorem toIterList_mono {t t' : Tree α} (he : ExtendsOn t.heap t'.heap)
    (hlen : t.heap.length ≤ t'.heap.length) (hend : t'.endN = t.endN)
    (hroot : t'.root = t.root) {l : List α}
    (H : toIterList t = .ok l) : toIterList t' = .ok l := by
  unfold toIterList RBTree.begin findMin at H ⊢
  rw [hroot, hend]
  cases hr : t.root with
  | none =>
    rw [hr] at H
    dsimp only [Res.bind] at H ⊢
    exact toIterGo_mono he hlen hend (by omega) H
  | some r =>
    rw [hr] at H
    dsimp only at H ⊢
    rw [Res.bind_eq_ok] at H
    obtain ⟨b, hb, H⟩ := H
    rw [Res.bind_eq_ok] at hb
    obtain ⟨m, hm, hb⟩ := hb
    injection hb with hb
    subst hb
    rw [findMinGo_mono he (by omega) hm]
    dsimp only [Res.bind]
    exact toIterGo_mono he hlen hend (by omega) H

/-- Core of the duplicate path of `RBTree::insert`: with an
equivalent value present, `insert` allocates a fresh node, finds the
duplicate, frees the fresh node again and returns the found position
with `false`; size, root, sentinel and every heap slot are unchanged,
only the allocation count has risen. -/
theorem insert_duplicate_spec (α : Type) (cmp : Cmp α) (t : Tree α) (v : α)
    (H : RBTree.contains cmp t v = .ok true) :
    ∃ a, (a ≠ t.endN ∧ ∃ nd, t.heap.lookupN a = some nd) ∧
      RBTree.findIt cmp t v = .ok ⟨some a, some t.endN⟩ ∧
      ∃ t', RBTree.insert cmp t v = (t', .ok (⟨some a, none⟩, false)) ∧
        t'.size = t.size ∧ t'.root = t.root ∧ t'.endN = t.endN ∧
        t'.allocs = t.allocs + 1 ∧
        (∀ b, t'.heap.lookupN b = t.heap.lookupN b) ∧
        (∀ l, toIterList t = .ok l → toIterList t' = .ok l) := by
  unfold RBTree.contains at H
  rw [Res.bind_eq_ok] at H
  obtain ⟨it, hit, H⟩ := H
  injection H with H
  have hne : it.cur ≠ some t.endN := of_decide_eq_true H
  unfold RBTree.findIt at hit
  rw [Res.bind_eq_ok] at hit
  obtain ⟨r, hr, hit⟩ := hit
  cases r with
  | none =>
    exfalso
    injection hit with hit
    apply hne
    rw [show it = RBTree.endIt t from hit.symm]
    rfl
  | some a =>
    injection hit with hit
    refine ⟨a, findDesc_found_lookup hr, ?_, ?_⟩
    · unfold RBTree.findIt
      rw [hr]
      rfl
    · have hfd : findDesc (t.heap ++ [some (RBNode.mk v none none none Color.RED)])
          cmp t.endN v t.root
          ((t.heap ++ [some (RBNode.mk v none none none Color.RED)]).length + 1) =
          .ok (some a) :=
        findDesc_mono (extendsOn_append _ _) (by simp) hr
      have hins := findDesc_found_insertDesc none hfd
      refine ⟨{ t with heap := (t.heap ++ [some (RBNode.mk v none none none Color.RED)]).free t.heap.length, allocs := t.allocs + 1 }, ?_, rfl, rfl, rfl, rfl, ?_, ?_⟩
      · simp only [RBTree.insert, Heap.alloc]
        rw [hins]
      · intro b
        exact lookupN_alloc_free t.heap _ b
      · intro l hl
        refine toIterList_mono ?_ ?_ ?_ ?_ hl
        · intro b nd hb
          rw [lookupN_alloc_free]
          exact hb
        · rw [Heap.length_free]
          simp
        · rfl
        · rfl

/-- Core of the fresh-insert path of `RBTree::insert`: when the
descent reports an insertion point and the call returns normally, the
result is the new node's position with `true`, the size and the
allocation count have risen by one, and the new node (at the old heap
length) stores the inserted value. -/
theorem insert_new_spec (α : Type) (cmp : Cmp α) (t : Tree α) (v : α)
    (p : Option Nat)
    (hins : insertDesc (t.heap ++ [some (RBNode.mk v none none none Color.RED)])
      cmp t.endN v t.root none
      ((t.heap ++ [some (RBNode.mk v none none none Color.RED)]).length + 1) =
      .ok (.inr p))
    {t' : Tree α} {res : Iter × Bool}
    (H : RBTree.insert cmp t v = (t', .ok res)) :
    res = (⟨some t.heap.length, none⟩, true) ∧ t'.size = t.size + 1 ∧
      t'.endN = t.endN ∧ t'.allocs = t.allocs + 1 ∧
      valAt t'.heap t.heap.length = some v := by
  simp only [RBTree.insert, Heap.alloc] at H
  rw [hins] at H
  dsimp only at H
  split at H
  · rename_i t1 u hlk
    split at H
    · exact absurd (congrArg Prod.snd H) (by simp)
    · exact absurd (congrArg Prod.snd H) (by simp)
    · rename_i t2 hfx
      split at H
      · exact absurd (congrArg Prod.snd H) (by simp)
      · exact absurd (congrArg Prod.snd H) (by simp)
      · rename_i t3 hth
        have h1 := congrArg Prod.fst H
        have h2 := congrArg Prod.snd H
        dsimp only at h1 h2
        injection h2 with h2
        subst h2
        subst h1
        have k1 : Keeps { t with heap := t.heap ++ [some (RBNode.mk v none none none Color.RED)], allocs := t.allocs + 1 } t1 := by
          have k0 := linkNew_keeps cmp ({ t with heap := t.heap ++ [some (RBNode.mk v none none none Color.RED)], allocs := t.allocs + 1 }) v t.heap.length p
          rw [hlk] at k0
          exact k0
        have kk := (k1.trans (fixInsert_keeps hfx)).trans (threadU_keeps hth)
        refine ⟨rfl, ?_, ?_, ?_, ?_⟩
        · exact congrArg (fun n => n + 1) kk.2.1
        · exact kk.1
        · exact kk.2.2.1
        · rw [kk.2.2.2.2 t.heap.length]
          unfold valAt
          rw [Heap.lookupN_append, if_pos rfl]
          rfl
  · rename_i t1 e hlk
    exact absurd (congrArg Prod.snd H) (by simp)
  · rename_i t1 hlk
    exact absurd (congrArg Prod.snd H) (by simp)

/-! ## In-order successor machinery (claim C8) -/

theorem isTree_none_nil {h : Heap α} {endN : Nat} {p : Option Nat}
    {l : List (Nat × α)} (H : IsTree h endN p none l) : l = [] := by
  cases H
  rfl

theorem isTree_endN_nil {h : Heap α} {endN : Nat} {p : Option Nat}
    {l : List (Nat × α)} (H : IsTree h endN p (some endN) l) : l = [] := by
  cases H with
  | nilEnd => rfl
  | node p a nd L R hnd hne hp hle hL hR haL haR hLR =>
    exact absurd rfl hne

/-- Inversion for a non-sentinel root. -/
theorem isTree_some_node {h : Heap α} {endN : Nat} {p : Option Nat}
    {a : Nat} {l : List (Nat × α)} (H : IsTree h endN p (some a) l)
    (hane : a ≠ endN) :
    ∃ nd L R, h.lookupN a = some nd ∧ nd.parent = p ∧
      nd.left ≠ some endN ∧
      IsTree h endN (some a) nd.left L ∧
      IsTree h endN (some a) nd.right R ∧
      (∀ x ∈ L.map Prod.fst, x ≠ a) ∧ (∀ x ∈ R.map Prod.fst, x ≠ a) ∧
      (∀ x ∈ L.map Prod.fst, x ∉ R.map Prod.fst) ∧
      l = L ++ (a, nd.value) :: R := by
  cases H with
  | nilEnd => exact absurd rfl hane
  | node _ _ nd L R hnd hne hp hle hL hR haL haR hLR =>
    exact ⟨nd, L, R, hnd, hp, hle, hL, hR, haL, haR, hLR, rfl⟩

/-- Every listed address is a live non-sentinel node holding the
listed value. -/
theorem isTree_mem_spec {h : Heap α} {endN : Nat} :
    ∀ {p rt : Option Nat} {l : List (Nat × α)}, IsTree h endN p rt l →
      ∀ pr ∈ l, pr.1 ≠ endN ∧
        ∃ nd, h.lookupN pr.1 = some nd ∧ nd.value = pr.2 := by
  intro p rt l H
  induction H with
  | nil _ => intro pr hpr; simp at hpr
  | nilEnd _ => intro pr hpr; simp at hpr
  | node q a nd L R hnd hne hp hle hL hR haL haR hLR ihL ihR =>
    intro pr hpr
    rw [List.mem_append] at hpr
    cases hpr with
    | inl hL' => exact ihL pr hL'
    | inr hR' =>
      rw [List.mem_cons] at hR'
      cases hR' with
      | inl heq => subst heq; exact ⟨hne, nd, hnd, rfl⟩
      | inr hR'' => exact ihR pr hR''

/-- The listed addresses are pairwise distinct. -/
theorem isTree_nodup {h : Heap α} {endN : Nat} :
    ∀ {p rt : Option Nat} {l : List (Nat × α)}, IsTree h endN p rt l →
      (l.map Prod.fst).Nodup := by
  intro p rt l H
  induction H with
  | nil _ => simp
  | nilEnd _ => simp
  | node q a nd L R hnd hne hp hle hL hR haL haR hLR ihL ihR =>
    rw [List.map_append, List.map_cons, List.nodup_append]
    refine ⟨ihL, ?_, ?_⟩
    · rw [List.nodup_cons]
      exact ⟨fun hc => haR a hc rfl, ihR⟩
    · intro x hxL hxR
      rw [List.mem_cons] at hxR
      cases hxR with
      | inl he => exact haL x hxL he
      | inr hm => exact hLR x hxL hm

/-- Distinct live addresses bound the listing length by the heap
size. -/
theorem isTree_length_le {h : Heap α} {endN : Nat} {p rt : Option Nat}
    {l : List (Nat × α)} (H : IsTree h endN p rt l) :
    l.length ≤ h.length := by
  have hnodup := isTree_nodup H
  have hmem : ∀ x ∈ l.map Prod.fst, x < h.length := by
    intro x hx
    rw [List.mem_map] at hx
    obtain ⟨pr, hpr, hfst⟩ := hx
    obtain ⟨-, nd, hlook, -⟩ := isTree_mem_spec H pr hpr
    subst hfst
    exact Heap.lookupN_lt hlook
  have h1 : (l.map Prod.fst).toFinset.card = (l.map Prod.fst).length :=
    List.toFinset_card_of_nodup hnodup
  have h2 : (l.map Prod.fst).toFinset ⊆ Finset.range h.length := by
    intro x hx
    rw [List.mem_toFinset] at hx
    rw [Finset.mem_range]
    exact hmem x hx
  have h3 := Finset.card_le_card h2
  rw [h1, Finset.card_range, List.length_map] at h3
  exact h3

/-- The root of a non-sentinel subtree appears in its listing. -/
theorem isTree_root_mem {h : Heap α} {endN : Nat} {p : Option Nat}
    {c : Nat} {l : List (Nat × α)} (H : IsTree h endN p (some c) l)
    (hne : c ≠ endN) : c ∈ l.map Prod.fst := by
  obtain ⟨nd, L, R, -, -, -, -, -, -, -, -, hl⟩ := isTree_some_node H hne
  subst hl
  simp

theorem descTo_leaf {h : Heap α} {a : Nat} {nd : RBNode α}
    (hnd : h.lookupN a = some nd) (hl : nd.left = none) :
    DescTo h a a 0 := by
  intro g
  rw [show 0 + 1 + g = g + 1 from by omega]
  unfold descLeftGo
  rw [hnd]
  dsimp only
  rw [hl]

theorem descTo_step {h : Heap α} {a c m d : Nat} {nd : RBNode α}
    (hnd : h.lookupN a = some nd) (hl : nd.left = some c)
    (hd : DescTo h c m d) : DescTo h a m (d + 1) := by
  intro g
  rw [show d + 1 + 1 + g = d + 1 + g + 1 from by omega]
  unfold descLeftGo
  rw [hnd]
  dsimp only
  rw [hl]
  exact hd g

/-- The left descent from a non-sentinel subtree root reaches the
first listed node, within fewer steps than the listing length. -/
theorem isTree_descTo {h : Heap α} {endN : Nat} :
    ∀ {p rt : Option Nat} {l : List (Nat × α)}, IsTree h endN p rt l →
      ∀ a, rt = some a → a ≠ endN →
      ∃ x xs, l = x :: xs ∧ ∃ d, d + 1 ≤ l.length ∧ DescTo h a x.1 d := by
  intro p rt l H
  induction H with
  | nil _ => intro a ha _; exact Option.noConfusion ha
  | nilEnd _ =>
    intro a ha hane
    injection ha with ha
    exact absurd ha.symm hane
  | node q a' nd L R hnd hne hp hle hL hR haL haR hLR ihL ihR =>
    intro a ha _
    injection ha with ha
    subst ha
    cases hLc : nd.left with
    | none =>
      have hLnil : L = [] := isTree_none_nil (hLc ▸ hL)
      subst hLnil
      exact ⟨(a', nd.value), R, rfl, 0, by simp, descTo_leaf hnd hLc⟩
    | some c =>
      have hcne : c ≠ endN := fun hc => hle (by rw [hLc, hc])
      obtain ⟨x0, xs, hLcons, d, hdle, hdesc⟩ := ihL c hLc hcne
      subst hLcons
      refine ⟨x0, xs ++ (a', nd.value) :: R, rfl, d + 1, ?_,
        descTo_step hnd hLc hdesc⟩
      simp only [List.length_cons, List.length_append] at hdle ⊢
      omega

theorem climbTo_root {h : Heap α} {a : Nat} {nd : RBNode α}
    (hnd : h.lookupN a = some nd) (hpn : nd.parent = none) :
    ClimbTo h a none 0 := by
  intro g
  rw [show 0 + 1 + g = g + 1 from by omega]
  unfold climbGo
  rw [hnd]
  dsimp only
  rw [hpn]

theorem climbTo_left {h : Heap α} {c a : Nat} {ndc nda : RBNode α}
    (hndc : h.lookupN c = some ndc) (hpc : ndc.parent = some a)
    (hnda : h.lookupN a = some nda) (hra : nda.right ≠ some c) :
    ClimbTo h c (some a) 0 := by
  intro g
  rw [show 0 + 1 + g = g + 1 from by omega]
  unfold climbGo
  rw [hndc]
  dsimp only
  rw [hpc]
  dsimp only
  rw [hnda]
  dsimp only
  rw [if_neg hra]

theorem climbTo_step {h : Heap α} {c a d : Nat} {kr : Option Nat}
    {ndc nda : RBNode α}
    (hndc : h.lookupN c = some ndc) (hpc : ndc.parent = some a)
    (hnda : h.lookupN a = some nda) (hra : nda.right = some c)
    (hcl : ClimbTo h a kr d) : ClimbTo h c kr (d + 1) := by
  intro g
  rw [show d + 1 + 1 + g = d + 1 + g + 1 from by omega]
  unfold climbGo
  rw [hndc]
  dsimp only
  rw [hpc]
  dsimp only
  rw [hnda]
  dsimp only
  rw [if_pos hra]
  exact hcl g

/-- The main induction: over a well-formed listed subtree whose climb
continuation is `kr` (with climb budget `dK`), `operator++` moves from
every listed node to the next listed node, and from the last one to
the continuation (sentinel when empty). -/
theorem isTree_chainSpec {h : Heap α} {endN : Nat}
    (hsent : ∃ snd, h.lookupN endN = some snd ∧ snd.left = none) :
    ∀ {p rt : Option Nat} {l : List (Nat × α)}, IsTree h endN p rt l →
      ∀ kr dK n, (∀ a, rt = some a → ClimbTo h a kr dK) →
        dK + l.length ≤ n → ThreadFree h endN l kr →
        ChainSpec h endN n l kr := by
  intro p rt l H
  induction H with
  | nil _ =>
    intro kr dK n _ _ _ i x vx hget
    rw [List.getElem?_eq_none (by simp)] at hget
    exact Option.noConfusion hget
  | nilEnd _ =>
    intro kr dK n _ _ _ i x vx hget
    rw [List.getElem?_eq_none (by simp)] at hget
    exact Option.noConfusion hget
  | node q a nd L R hnd hne hp hle hL hR haL haR hLR ihL ihR =>
    intro kr dK n hK hn HT i x vx hget
    have hKa : ClimbTo h a kr dK := hK a rfl
    have hlen : (L ++ (a, nd.value) :: R).length = L.length + 1 + R.length := by
      simp only [List.length_append, List.length_cons]
      omega
    have htar0 : (L ++ (a, nd.value) :: R)[L.length + 1]? = R[0]? := by
      rw [List.getElem?_append, if_neg (by omega),
        show L.length + 1 - L.length = 1 from by omega,
        List.getElem?_cons_succ]
    rcases Nat.lt_trichotomy i L.length with hi | hi | hi
    · -- the position lies in the left subtree
      have hgetL : L[i]? = some (x, vx) := by
        rw [List.getElem?_append, if_pos hi] at hget
        exact hget
      cases hLc : nd.left with
      | none =>
        have hLnil : L = [] := isTree_none_nil (hLc ▸ hL)
        rw [hLnil] at hgetL
        rw [List.getElem?_eq_none (by simp)] at hgetL
        exact Option.noConfusion hgetL
      | some c =>
        have hcne : c ≠ endN := fun hc => hle (by rw [hLc, hc])
        have hLt : IsTree h endN (some a) (some c) L := hLc ▸ hL
        obtain ⟨ndc, LL, RR, hndc, hpc, -, -, -, -, -, -, -⟩ :=
          isTree_some_node hLt hcne
        have hcid : c ∈ L.map Prod.fst := isTree_root_mem (hLc ▸ hL) hcne
        have hra : nd.right ≠ some c := by
          intro hrc
          exact hLR c hcid (isTree_root_mem (hrc ▸ hR) hcne)
        have hclL : ClimbTo h c (some a) 0 := climbTo_left hndc hpc hnd hra
        have HT_L : ThreadFree h endN L (some a) := by
          intro pr hpr ndy hy hr
          exfalso
          obtain ⟨-, hlast⟩ :=
            HT pr (by rw [List.mem_append]; exact .inl hpr) ndy hy hr
          have hprR : pr ∈ (a, nd.value) :: R := by
            rw [List.getLast?_append] at hlast
            have hsome : ((a, nd.value) :: R).getLast?.isSome := by
              rw [List.getLast?_isSome]
              simp
            obtain ⟨w, hw⟩ := Option.isSome_iff_exists.mp hsome
            rw [hw] at hlast
            have hlast2 : some w = some pr := hlast
            injection hlast2 with hlast2
            subst hlast2
            exact List.mem_of_mem_getLast? hw
          rcases List.mem_cons.mp hprR with he | hm
          · exact haL pr.1 (List.mem_map_of_mem _ hpr) (by rw [he])
          · exact hLR pr.1 (List.mem_map_of_mem _ hpr)
              (List.mem_map_of_mem _ hm)
        have hchainL := ihL (some a) 0 n
          (fun c' hc' => by
            rw [hLc] at hc'
            injection hc' with hc'
            subst hc'
            exact hclL)
          (by omega) HT_L
        have hstep := hchainL i x vx hgetL
        have htar : nextA L i ((some a).getD endN) =
            nextA (L ++ (a, nd.value) :: R) i (kr.getD endN) := by
          unfold nextA
          rw [List.getElem?_append]
          by_cases hi1 : i + 1 < L.length
          · rw [if_pos hi1, List.getElem?_eq_getElem hi1]
          · rw [if_neg hi1,
              show i + 1 - L.length = 0 from by omega,
              List.getElem?_cons_zero,
              List.getElem?_eq_none (by omega : L.length ≤ i + 1)]
            rfl
        rw [← htar]
        exact hstep
    · -- the root position
      subst hi
      rw [List.getElem?_append, if_neg (by omega), Nat.sub_self,
        List.getElem?_cons_zero] at hget
      injection hget with hget
      have hxa : a = x := congrArg Prod.fst hget
      subst hxa
      cases hnr : nd.right with
      | none =>
        have hRnil : R = [] := isTree_none_nil (hnr ▸ hR)
        refine ⟨nd, hnd, Or.inr ⟨hnr, kr, dK, by omega, hKa, ?_⟩⟩
        unfold nextA
        rw [htar0, hRnil]
        rfl
      | some r =>
        by_cases hre : r = endN
        · rw [hre] at hnr
          have hRnil : R = [] := isTree_endN_nil (hnr ▸ hR)
          obtain ⟨hkrnone, -⟩ := HT (a, nd.value) (by simp) nd hnd hnr
          obtain ⟨snd, hsnd, hsl⟩ := hsent
          refine ⟨nd, hnd, Or.inl ⟨endN, 0, hnr, by omega, ?_⟩⟩
          have htgt : nextA (L ++ (a, nd.value) :: R) L.length
              (kr.getD endN) = endN := by
            unfold nextA
            rw [htar0, hRnil, hkrnone]
            rfl
          rw [htgt]
          exact descTo_leaf hsnd hsl
        · obtain ⟨x0, xs, hRcons, d, hdle, hdesc⟩ :=
            isTree_descTo (hnr ▸ hR) r rfl hre
          refine ⟨nd, hnd, Or.inl ⟨r, d, hnr, by omega, ?_⟩⟩
          have htgt : nextA (L ++ (a, nd.value) :: R) L.length
              (kr.getD endN) = x0.1 := by
            unfold nextA
            rw [htar0, hRcons, List.getElem?_cons_zero]
          rw [htgt]
          exact hdesc
    · -- the position lies in the right subtree
      have hgetR : R[i - (L.length + 1)]? = some (x, vx) := by
        rw [List.getElem?_append, if_neg (by omega),
          show i - L.length = i - (L.length + 1) + 1 from by omega,
          List.getElem?_cons_succ] at hget
        exact hget
      cases hnr : nd.right with
      | none =>
        have hRnil : R = [] := isTree_none_nil (hnr ▸ hR)
        rw [hRnil] at hgetR
        rw [List.getElem?_eq_none (by simp)] at hgetR
        exact Option.noConfusion hgetR
      | some r =>
        by_cases hre : r = endN
        · rw [hre] at hnr
          have hRnil : R = [] := isTree_endN_nil (hnr ▸ hR)
          rw [hRnil] at hgetR
          rw [List.getElem?_eq_none (by simp)] at hgetR
          exact Option.noConfusion hgetR
        · have hRt : IsTree h endN (some a) (some r) R := hnr ▸ hR
          obtain ⟨ndr, LL, RR, hndr, hprr, -, -, -, -, -, -, -⟩ :=
            isTree_some_node hRt hre
          have hclR : ClimbTo h r kr (dK + 1) :=
            climbTo_step hndr hprr hnd hnr hKa
          have HT_R : ThreadFree h endN R kr := by
            intro pr hpr' ndy hy hr'
            obtain ⟨hk0, hlast⟩ := HT pr
              (by rw [List.mem_append, List.mem_cons]
                  exact .inr (.inr hpr')) ndy hy hr'
            refine ⟨hk0, ?_⟩
            rw [List.getLast?_append] at hlast
            cases hR0 : R with
            | nil =>
              rw [hR0] at hpr'
              exact absurd hpr' (by simp)
            | cons y ys =>
              rw [hR0] at hlast
              rw [List.getLast?_cons_cons] at hlast
              have hsome : ((y :: ys).getLast?).isSome := by
                rw [List.getLast?_isSome]
                simp
              obtain ⟨w, hw⟩ := Option.isSome_iff_exists.mp hsome
              rw [hw] at hlast ⊢
              exact hlast
          have hchainR := ihR kr (dK + 1) n
            (fun r' hr' => by
              rw [hnr] at hr'
              injection hr' with hr'
              subst hr'
              exact hclR)
            (by omega) HT_R
          have hstep := hchainR (i - (L.length + 1)) x vx hgetR
          have htar : nextA R (i - (L.length + 1)) (kr.getD endN) =
              nextA (L ++ (a, nd.value) :: R) i (kr.getD endN) := by
            unfold nextA
            rw [List.getElem?_append, if_neg (by omega),
              show i + 1 - L.length = i - (L.length + 1) + 1 + 1 from by omega,
              List.getElem?_cons_succ]
          rw [← htar]
          exact hstep

/-- Converting an abstract successor step into the `operator++`
computation at the tree's actual fuel. -/
theorem succStep_succIt {t : Tree α} {n x tgt : Nat}
    (hs : SuccStep t.heap t.endN n x tgt) (hn : n ≤ t.heap.length)
    (hx : x ≠ t.endN) :
    succIt t ⟨some x, some t.endN⟩ = .ok ⟨some tgt, some t.endN⟩ := by
  obtain ⟨nd, hnd, hcase⟩ := hs
  unfold succIt
  dsimp only
  rw [if_neg (by simpa using hx)]
  rw [hnd]
  dsimp only
  cases hcase with
  | inl hdc =>
    obtain ⟨c, d, hrc, hd, hdesc⟩ := hdc
    rw [hrc]
    dsimp only
    have hfe := hdesc (t.heap.length - d)
    rw [show d + 1 + (t.heap.length - d) = t.heap.length + 1 from by omega]
      at hfe
    rw [hfe]
    rfl
  | inr hcl =>
    obtain ⟨hrn, kr, d, hd, hclimb, htgt⟩ := hcl
    rw [hrn]
    dsimp only
    have hfe := hclimb (t.heap.length - d)
    rw [show d + 1 + (t.heap.length - d) = t.heap.length + 1 from by omega]
      at hfe
    rw [hfe]
    cases kr with
    | some pp =>
      dsimp only [Res.bind]
      rw [show tgt = pp from htgt]
    | none =>
      dsimp only [Res.bind]
      rw [show tgt = t.endN from htgt]

/-- The hand-written tree `exIterTree` is well formed with in-order
listing `[(1,1), (2,2), (3,3)]`. -/
theorem exIterTree_isTree :
    IsTree exIterTree.heap 0 none (some 2) [(1, 1), (2, 2), (3, 3)] := by
  have h1 : IsTree exIterTree.heap 0 (some 2) (some 1) [(1, 1)] :=
    IsTree.node (some 2) 1 (RBNode.mk 1 none none (some 2) Color.RED) [] []
      (by decide) (by decide) (by decide) (by decide)
      (IsTree.nil (some 1)) (IsTree.nil (some 1))
      (by simp) (by simp) (by simp)
  have h3 : IsTree exIterTree.heap 0 (some 2) (some 3) [(3, 3)] :=
    IsTree.node (some 2) 3 (RBNode.mk 3 none (some 0) (some 2) Color.RED) [] []
      (by decide) (by decide) (by decide) (by decide)
      (IsTree.nil (some 3)) (IsTree.nilEnd (some 3))
      (by simp) (by simp) (by simp)
  exact IsTree.node none 2 (RBNode.mk 2 (some 1) (some 3) none Color.BLACK)
    [(1, 1)] [(3, 3)] (by decide) (by decide) (by decide) (by decide)
    h1 h3 (by decide) (by decide) (by decide)

/-- In `exIterTree` only the maximum node 3 threads the sentinel. -/
theorem exIterTree_threadFree :
    ThreadFree exIterTree.heap 0 [(1, 1), (2, 2), (3, 3)] none := by
  intro pr hpr ndy hy hr
  rcases List.mem_cons.mp hpr with h1 | hpr
  · subst h1
    dsimp only at hy
    rw [show exIterTree.heap.lookupN 1 =
      some (RBNode.mk 1 none none (some 2) Color.RED) from by decide] at hy
    injection hy with hy
    subst hy
    exact absurd hr (by decide)
  rcases List.mem_cons.mp hpr with h2 | hpr
  · subst h2
    dsimp only at hy
    rw [show exIterTree.heap.lookupN 2 =
      some (RBNode.mk 2 (some 1) (some 3) none Color.BLACK) from by decide]
      at hy
    injection hy with hy
    subst hy
    exact absurd hr (by decide)
  rcases List.mem_cons.mp hpr with h3 | hpr
  · subst h3
    exact ⟨rfl, by decide⟩
  · exact absurd hpr (by simp)

/-! ## Claim theorems -/

/-- Claim C1: the claim asserts that after every public operation
(including `erase`) the tree satisfies the red-black color rules.
The code violates this: `{1,2,3,4}` is valid, but erasing `1` (a
black leaf) calls `fixErase(nullptr)`, whose loop guard `node && ...`
skips the whole fix-up when the replacement child is null, leaving
the left root-to-leaf path with 1 black node and the right path
with 2.  (The remaining elements `[2,3,4]` confirm a normal erase
otherwise took place.) -/
theorem claim1_color_rules_violated_after_erase :
    rbValid exSet1234 = true ∧
    toIterList exSet1234 = .ok [1, 2, 3, 4] ∧
    toIterList exSet234 = .ok [2, 3, 4] ∧
    exSet234.size = 3 ∧
    rbValid exSet234 = false := by decide

/-- Claim C2 counterexample, refuting both halves of the claim.
"Never a child of an internal node": already after `insert(1)` into
an empty tree, `insert` executes `maxNode->right_ = endNode_`, making
the sentinel the right child of the root, hence reachable from the
root via child links.  "Parent is the current maximum when
non-empty": in the reachable state `insert 10; insert 5;
erase(find(10))` the tree still holds the element 5, yet the
sentinel's parent is null (and the sentinel is no node's child). -/
theorem claim2_sentinel_threaded_counterexample :
    (toIterList exSet1 = .ok [1] ∧ exSet1.size = 1 ∧
      sentinelIsChild exSet1 = true) ∧
    (toIterList exCorrupt = .ok [5] ∧ exCorrupt.size = 1 ∧
      sentinelParent exCorrupt = none ∧
      sentinelIsChild exCorrupt = false) := by decide

/-- Claim C2 (amended): the sentinel's parent is null in a freshly
constructed tree; whenever `insert` completes an insertion on a tree
with a live sentinel (and the resulting root is a regular node), the
sentinel's parent points to the rightmost node `m` (the one
`find_max` returns) and the sentinel IS threaded as `m`'s right
child — so, contrary to the original claim, it is then reachable
from the root via child links; but neither property is maintained by
every public operation: `erase` can leave a non-empty tree (`insert
10; insert 5; erase(find(10))` still holds 5) whose sentinel parent
is null and in which the sentinel is no node's child. -/
theorem claim2_sentinel_threading_amended :
    sentinelParent (Tree.mk0 (α := Nat)) = none ∧
    (∀ (α : Type) (cmp : Cmp α) (t t' : Tree α) (v : α) (it : Iter),
      (∃ e, t.heap.lookupN t.endN = some e) →
      RBTree.insert cmp t v = (t', .ok (it, true)) →
      t'.root ≠ some t'.endN →
      ∃ m, m ≠ t'.endN ∧ sentinelParent t' = some m ∧
        (∃ nd, t'.heap.lookupN m = some nd ∧ nd.right = some t'.endN) ∧
        findMax t' t'.root = .ok m) ∧
    (toIterList exCorrupt = .ok [5] ∧ sentinelParent exCorrupt = none ∧
      sentinelIsChild exCorrupt = false) := by
  refine ⟨rfl, ?_, by decide⟩
  intro α cmp t t' v it hlive H hroot
  simp only [RBTree.insert, Heap.alloc] at H
  split at H
  · exact absurd (congrArg Prod.snd H) (by simp)
  · exact absurd (congrArg Prod.snd H) (by simp)
  · have h2 := congrArg Prod.snd H
    simp at h2
  · rename_i parent hdesc
    split at H
    · rename_i t1 u hlink
      split at H
      · exact absurd (congrArg Prod.snd H) (by simp)
      · exact absurd (congrArg Prod.snd H) (by simp)
      · rename_i t2 hfix
        split at H
        · exact absurd (congrArg Prod.snd H) (by simp)
        · exact absurd (congrArg Prod.snd H) (by simp)
        · rename_i t3 hthread
          injection H with H1 H2
          subst H1
          have hlive0 : ∃ e,
              (t.heap ++ [some ({ value := v, left := none, right := none, parent := none, color := Color.RED } : RBNode α)]).lookupN t.endN = some e := by
            obtain ⟨e, he⟩ := hlive
            refine ⟨e, ?_⟩
            rw [Heap.lookupN_append,
              if_neg (fun hc => by have := Heap.lookupN_lt he; omega)]
            exact he
          have k1 : Keeps { t with heap := t.heap ++ [some ({ value := v, left := none, right := none, parent := none, color := Color.RED } : RBNode α)], allocs := t.allocs + 1 } t1 := by
            have hk := linkNew_keeps cmp { t with heap := t.heap ++ [some ({ value := v, left := none, right := none, parent := none, color := Color.RED } : RBNode α)], allocs := t.allocs + 1 } v t.heap.length parent
            rw [hlink] at hk
            exact hk
          have k2 := k1.trans (fixInsert_keeps hfix)
          have hlive2 : ∃ e, t2.heap.lookupN t2.endN = some e := by
            have := k2.live (a := t.endN) hlive0
            rw [k2.1]
            exact this
          obtain ⟨r, hr2⟩ := fixInsert_root_some hfix
          have hroot3 := threadU_root hthread
          have hk3 := threadU_keeps hthread
          have hrne : r ≠ t2.endN := by
            intro hc
            apply hroot
            show t3.root = some t3.endN
            rw [hroot3, hk3.1, hr2, hc]
          obtain ⟨m, hm1, hm2, hm3, hm4, hm5, hm6⟩ :=
            threadU_spec hthread hr2 hrne hlive2
          refine ⟨m, ?_, hm2, hm3, hm4⟩
          show m ≠ t3.endN
          rw [hk3.1]
          exact hm1
    · exact absurd (congrArg Prod.snd H) (by simp)
    · exact absurd (congrArg Prod.snd H) (by simp)

/-- Witness for the amended claim C2: inserting 1 into the empty
tree. -/
theorem claim2_sentinel_threading_amended_witness :
    ∃ m, m ≠ (RBTree.insert natLt Tree.mk0 1).1.endN ∧
      sentinelParent (RBTree.insert natLt Tree.mk0 1).1 = some m ∧
      (∃ nd, (RBTree.insert natLt Tree.mk0 1).1.heap.lookupN m =
        some nd ∧ nd.right = some (RBTree.insert natLt Tree.mk0 1).1.endN) ∧
      findMax (RBTree.insert natLt Tree.mk0 1).1
        (RBTree.insert natLt Tree.mk0 1).1.root = .ok m :=
  claim2_sentinel_threading_amended.2.1 Nat natLt Tree.mk0
    (RBTree.insert natLt Tree.mk0 1).1 1 ⟨some 1, none⟩
    ⟨{ value := 0, color := .BLACK }, rfl⟩ (by decide) (by decide)

/-- Claim C3: the claim asserts the rollback of `insert_many` always
restores the pre-call state.  The flagship spec scenario does hold:
`insert_many(1,2,42,3)` on an empty set with the raising comparator
raises `ComparatorPanic` and leaves the set empty.  But on the set
`{10}`, `insert_many(20,15,42)` raises, the rollback erases `20` and
then `15`, and erasing those nodes splices the sentinel into the tree
(`erase` treats the threaded `maxNode->right_ == endNode_` as a real
right child), after which `find`/`count` no longer see the element
10 that iteration still reports: the final state differs observably
from the pre-call state. -/
theorem claim3_insert_many_rollback_not_restoring :
    ((SetC.insertMany c42 Tree.mk0 [1, 2, 42, 3]).2 =
      .exn .comparatorPanic ∧
     toIterList (SetC.insertMany c42 Tree.mk0 [1, 2, 42, 3]).1 = .ok [] ∧
     (SetC.insertMany c42 Tree.mk0 [1, 2, 42, 3]).1.size = 0) ∧
    (SetC.count c42 exPre10 10 = .ok 1 ∧
     toIterList exPre10 = .ok [10] ∧
     (SetC.insertMany c42 exPre10 [20, 15, 42]).2 = .exn .comparatorPanic ∧
     SetC.count c42 (SetC.insertMany c42 exPre10 [20, 15, 42]).1 10 =
       .ok 0 ∧
     toIterList (SetC.insertMany c42 exPre10 [20, 15, 42]).1 =
       .ok [10]) := by decide

/-- Claim C4 counterexample: the claim says a duplicate
`insert_unique` performs no allocation.  `RBTree::insert` executes
`new Node(value)` before the search on every call; inserting the
duplicate `20` into `{10,20,30}` increments the allocation count
(and then destroys the node again). -/
theorem claim4_duplicate_insert_allocates_counterexample :
    RBTree.contains natLt exSet3 20 = .ok true ∧
    (RBTree.insert natLt exSet3 20).1.allocs = exSet3.allocs + 1 := by
  decide

/-- Claim C4 (amended): when the tree already contains an equivalent
value, `insert` returns the position of that existing value with
`inserted = false` and leaves the tree's size, root, sentinel and
every node of the heap unchanged — but it first allocates one node and
destroys it again before returning (the allocation count rises by
one), rather than performing no allocation. -/
theorem claim4_duplicate_insert_amended :
    ∀ (α : Type) (cmp : Cmp α) (t : Tree α) (v : α),
      RBTree.contains cmp t v = .ok true →
      ∃ a, RBTree.findIt cmp t v = .ok ⟨some a, some t.endN⟩ ∧
        ∃ t', RBTree.insert cmp t v = (t', .ok (⟨some a, none⟩, false)) ∧
          t'.size = t.size ∧ t'.root = t.root ∧ t'.endN = t.endN ∧
          t'.allocs = t.allocs + 1 ∧
          (∀ b, t'.heap.lookupN b = t.heap.lookupN b) ∧
          (∀ l, toIterList t = .ok l → toIterList t' = .ok l) := by
  intro α cmp t v H
  obtain ⟨a, _, hfind, rest⟩ := insert_duplicate_spec α cmp t v H
  exact ⟨a, hfind, rest⟩

/-- Witness for the amended claim C4 on the spec's concrete scenario:
inserting the duplicate `20` into `{10,20,30}`. -/
theorem claim4_duplicate_insert_amended_witness :
    RBTree.contains natLt exSet3 20 = .ok true ∧
    (∃ a, RBTree.findIt natLt exSet3 20 = .ok ⟨some a, some exSet3.endN⟩ ∧
      ∃ t', RBTree.insert natLt exSet3 20 = (t', .ok (⟨some a, none⟩, false)) ∧
        t'.size = exSet3.size ∧ t'.root = exSet3.root ∧
        t'.endN = exSet3.endN ∧ t'.allocs = exSet3.allocs + 1 ∧
        (∀ b, t'.heap.lookupN b = exSet3.heap.lookupN b) ∧
        (∀ l, toIterList exSet3 = .ok l → toIterList t' = .ok l)) :=
  ⟨by decide, claim4_duplicate_insert_amended Nat natLt exSet3 20 (by decide)⟩

/-- Claim C5 counterexample: the claim says `erase` fails with
`InvalidIterator` whenever the position is not a valid member node.
The `end()` position is not a member node, yet `erase(end())` on
`{1}` returns normally (the guard `nodeToDelete == endNode_` silently
returns); only a null iterator throws. -/
theorem claim5_erase_end_no_failure_counterexample :
    (RBTree.erase exSet1 (RBTree.endIt exSet1)).2 = .ok () ∧
    (RBTree.erase exSet1 (RBTree.endIt exSet1)).1 = exSet1 := by decide

/-- Claim C8 counterexample: the claim says decrementing `end()`
always moves to the tree's maximum element.  In the reachable state
`insert 10; insert 5; erase(find(10))` the container still holds the
element 5 (iteration yields `[5]`, size is 1), but the sentinel's
parent was reset to null by `erase`, so `--end()` yields a null
iterator instead of the maximum. -/
theorem claim8_decrement_end_counterexample :
    toIterList exCorrupt = .ok [5] ∧ exCorrupt.size = 1 ∧
    predIt exCorrupt (RBTree.endIt exCorrupt) =
      .ok ⟨none, some exCorrupt.endN⟩ := by decide

/-- Claim C8 (amended): incrementing an iterator positioned at its
stored end stays there; decrementing `end()` moves to whatever node
the sentinel's parent pointer holds (the maximum only while the
threading is intact — `erase` can null it, see the counterexample);
and over a well-formed listed tree whose sentinel hangs off at most
the maximum, incrementing the iterator at the `i`-th in-order node
moves to the `(i+1)`-st node, or to the sentinel after the last. -/
theorem claim8_iterator_steps_amended :
    ∀ (α : Type) (t : Tree α),
      (∀ it : Iter, it.cur = it.endp → succIt t it = .ok it) ∧
      (∀ e, t.heap.lookupN t.endN = some e →
        predIt t (RBTree.endIt t) = .ok ⟨e.parent, some t.endN⟩) ∧
      (∀ (l : List (Nat × α)) (i : Nat) (x : Nat) (vx : α),
        IsTree t.heap t.endN none t.root l →
        (∃ snd, t.heap.lookupN t.endN = some snd ∧ snd.left = none) →
        ThreadFree t.heap t.endN l none →
        l[i]? = some (x, vx) →
        succIt t ⟨some x, some t.endN⟩ =
          .ok ⟨some (nextA l i t.endN), some t.endN⟩) := by
  intro α t
  refine ⟨?_, ?_, ?_⟩
  · intro it hit
    unfold succIt
    rw [if_pos hit]
  · intro e he
    unfold predIt RBTree.endIt
    dsimp only
    rw [if_pos rfl]
    rw [he]
  · intro l i x vx hT hsent hTF hget
    have hmem := isTree_mem_spec hT (x, vx) (List.getElem?_mem hget)
    have hxne : x ≠ t.endN := hmem.1
    cases hrt : t.root with
    | none =>
      rw [hrt] at hT
      rw [isTree_none_nil hT] at hget
      rw [List.getElem?_eq_none (by simp)] at hget
      exact Option.noConfusion hget
    | some rt0 =>
      rw [hrt] at hT
      by_cases hrtne : rt0 = t.endN
      · rw [hrtne] at hT
        rw [isTree_endN_nil hT] at hget
        rw [List.getElem?_eq_none (by simp)] at hget
        exact Option.noConfusion hget
      · obtain ⟨ndr, L, R, hndr, hpr, -, -, -, -, -, -, -⟩ :=
          isTree_some_node hT hrtne
        have hK : ClimbTo t.heap rt0 none 0 := climbTo_root hndr hpr
        have hchain := isTree_chainSpec hsent hT none 0 l.length
          (fun a ha => by
            injection ha with ha
            subst ha
            exact hK)
          (by omega) hTF
        have hstep := hchain i x vx hget
        exact succStep_succIt hstep (isTree_length_le hT) hxne

/-- Witness for the amended claim C8 on the concrete tree
`exIterTree` (values 1, 2, 3; sentinel 0 threaded on the maximum). -/
theorem claim8_iterator_steps_amended_witness :
    succIt exIterTree (RBTree.endIt exIterTree) =
      .ok (RBTree.endIt exIterTree) ∧
    predIt exIterTree (RBTree.endIt exIterTree) = .ok ⟨some 3, some 0⟩ ∧
    succIt exIterTree ⟨some 1, some 0⟩ =
      .ok ⟨some (nextA [(1, 1), (2, 2), (3, 3)] 0 0), some 0⟩ ∧
    succIt exIterTree ⟨some 3, some 0⟩ =
      .ok ⟨some (nextA [(1, 1), (2, 2), (3, 3)] 2 0), some 0⟩ :=
  ⟨(claim8_iterator_steps_amended Nat exIterTree).1
      (RBTree.endIt exIterTree) rfl,
   (claim8_iterator_steps_amended Nat exIterTree).2.1
      (RBNode.mk 0 none none (some 3) Color.BLACK) (by decide),
   (claim8_iterator_steps_amended Nat exIterTree).2.2
      [(1, 1), (2, 2), (3, 3)] 0 1 1 exIterTree_isTree
      ⟨RBNode.mk 0 none none (some 3) Color.BLACK, by decide⟩
      exIterTree_threadFree (by decide),
   (claim8_iterator_steps_amended Nat exIterTree).2.2
      [(1, 1), (2, 2), (3, 3)] 2 3 3 exIterTree_isTree
      ⟨RBNode.mk 0 none none (some 3) Color.BLACK, by decide⟩
      exIterTree_threadFree (by decide)⟩

/-- Claim C5 (amended): `erase` fails with `InvalidIterator` exactly
when the position holds a null node pointer, and silently returns
when the position is the sentinel; in both cases the tree is
completely unchanged. -/
theorem claim5_erase_invalid_amended :
    ∀ (α : Type) (t : Tree α) (it : Iter),
      (it.cur = none → RBTree.erase t it = (t, .exn .invalidIterator)) ∧
      (it.cur = some t.endN → RBTree.erase t it = (t, .ok ())) := by
  intro α t it
  constructor
  · intro h
    unfold RBTree.erase
    rw [h]
  · intro h
    unfold RBTree.erase
    rw [h]
    dsimp only
    rw [if_pos rfl]

/-- Witness for the amended claim C5 at concrete inputs. -/
theorem claim5_erase_invalid_amended_witness :
    RBTree.erase exSet1 ⟨none, none⟩ = (exSet1, .exn .invalidIterator) ∧
    RBTree.erase exSet1 (RBTree.endIt exSet1) = (exSet1, .ok ()) :=
  ⟨(claim5_erase_invalid_amended Nat exSet1 ⟨none, none⟩).1 rfl,
   (claim5_erase_invalid_amended Nat exSet1 (RBTree.endIt exSet1)).2 rfl⟩

/-- Claim C6: `Map::operator[](k)` with `k` present returns the
existing mapped value and leaves the map unchanged; with `k` absent
(when the insertion returns normally) it stores `(k, default)`, grows
the size by one and returns the default value; `Map::at(k)` returns
the mapped value when `k` is present and fails with `KeyNotFound`
when absent (`at` performs no mutation). -/
theorem claim6_map_bracket_at (K V : Type) [Inhabited V] (cmp : Cmp K)
    (t : Tree (K × V)) (k : K) :
    (RBTree.contains (mapCmp cmp) t (k, (default : V)) = .ok true →
      ∃ a nd, t.heap.lookupN a = some nd ∧
        ∃ t', MapC.bracket cmp t k = (t', .ok (⟨some a, none⟩, nd.value.2)) ∧
          t'.size = t.size ∧ (∀ b, t'.heap.lookupN b = t.heap.lookupN b)) ∧
    (RBTree.contains (mapCmp cmp) t (k, (default : V)) = .ok false →
      ∀ t' it v, MapC.bracket cmp t k = (t', .ok (it, v)) →
        v = default ∧ t'.size = t.size + 1 ∧
        it = ⟨some t.heap.length, none⟩ ∧
        valAt t'.heap t.heap.length = some (k, (default : V))) ∧
    (∀ a nd, RBTree.findIt (mapCmp cmp) t (k, (default : V)) =
        .ok ⟨some a, some t.endN⟩ →
      a ≠ t.endN → t.heap.lookupN a = some nd →
      MapC.at cmp t k = .ok nd.value.2) ∧
    (RBTree.contains (mapCmp cmp) t (k, (default : V)) = .ok false →
      MapC.at cmp t k = .exn .keyNotFound) := by
  refine ⟨?_, ?_, ?_, ?_⟩
  · intro H
    obtain ⟨a, ⟨hane, nd, hnd⟩, hfind, t', hins, hsize, hroot, hendN,
      hallocs, hlook, hiter⟩ :=
      insert_duplicate_spec (K × V) (mapCmp cmp) t (k, default) H
    refine ⟨a, nd, hnd, t', ?_, hsize, hlook⟩
    unfold MapC.bracket
    rw [hins]
    dsimp only
    rw [hlook a, hnd]
  · intro H t' it v Hbr
    have hr := contains_false_findDesc H
    have hfd : findDesc
        (t.heap ++ [some (RBNode.mk (k, (default : V)) none none none Color.RED)])
        (mapCmp cmp) t.endN (k, default) t.root
        ((t.heap ++ [some (RBNode.mk (k, (default : V)) none none none Color.RED)]).length + 1) =
        .ok none :=
      findDesc_mono (extendsOn_append _ _) (by simp) hr
    obtain ⟨p, hins⟩ := findDesc_none_insertDesc none hfd
    unfold MapC.bracket at Hbr
    cases hI : RBTree.insert (mapCmp cmp) t (k, (default : V)) with
    | mk tI rI =>
      rw [hI] at Hbr
      cases rI with
      | div => exact absurd (congrArg Prod.snd Hbr) (by simp)
      | exn e => exact absurd (congrArg Prod.snd Hbr) (by simp)
      | ok pr =>
        obtain ⟨it0, b⟩ := pr
        obtain ⟨spec1, spec2, spec3, spec4, spec5⟩ :=
          insert_new_spec (K × V) (mapCmp cmp) t (k, default) p hins hI
        have h1 : it0 = (⟨some t.heap.length, none⟩ : Iter) :=
          congrArg Prod.fst spec1
        subst h1
        dsimp only at Hbr
        cases hnd : tI.heap.lookupN t.heap.length with
        | none =>
          exfalso
          unfold valAt at spec5
          rw [hnd] at spec5
          exact Option.noConfusion spec5
        | some nd =>
          rw [hnd] at Hbr
          dsimp only at Hbr
          have spec5c := spec5
          unfold valAt at spec5
          rw [hnd] at spec5
          have hv : nd.value = (k, (default : V)) := by
            injection spec5
          have hfst := congrArg Prod.fst Hbr
          have hsnd := congrArg Prod.snd Hbr
          dsimp only at hfst hsnd
          injection hsnd with hsnd
          have hit : (⟨some t.heap.length, none⟩ : Iter) = it :=
            congrArg Prod.fst hsnd
          have hvv : nd.value.2 = v := congrArg Prod.snd hsnd
          subst hfst
          refine ⟨?_, spec2, hit.symm, ?_⟩
          · rw [← hvv, hv]
          · exact spec5c
  · intro a nd hfind hane hnd
    unfold MapC.at
    rw [hfind]
    dsimp only [Res.bind]
    rw [if_neg (by simpa using hane)]
    rw [hnd]
  · intro H
    obtain ⟨it, hfind, hcur⟩ := contains_false_find H
    unfold MapC.at
    rw [hfind]
    dsimp only [Res.bind]
    rw [if_pos hcur]

/-- Witness for claim C6 on the map `{10 ↦ 1, 20 ↦ 2, 30 ↦ 3}`:
`operator[]` on present key 20 and absent key 5, `at` on both. -/
theorem claim6_map_bracket_at_witness :
    (RBTree.contains (mapCmp natLt) exMap (20, 0) = .ok true ∧
      (∃ a nd, exMap.heap.lookupN a = some nd ∧
        ∃ t', MapC.bracket natLt exMap 20 = (t', .ok (⟨some a, none⟩, nd.value.2)) ∧
          t'.size = exMap.size ∧
          (∀ b, t'.heap.lookupN b = exMap.heap.lookupN b))) ∧
    (RBTree.contains (mapCmp natLt) exMap (5, 0) = .ok false ∧
      ((0 : Nat) = default ∧
        (MapC.bracket natLt exMap 5).1.size = exMap.size + 1 ∧
        (⟨some 4, none⟩ : Iter) = ⟨some exMap.heap.length, none⟩ ∧
        valAt (MapC.bracket natLt exMap 5).1.heap exMap.heap.length =
          some (5, 0))) ∧
    MapC.at natLt exMap 20 = .ok 2 ∧
    MapC.at natLt exMap 5 = .exn .keyNotFound :=
  ⟨⟨by decide, (claim6_map_bracket_at Nat Nat natLt exMap 20).1 (by decide)⟩,
   ⟨by decide, (claim6_map_bracket_at Nat Nat natLt exMap 5).2.1 (by decide)
      (MapC.bracket natLt exMap 5).1 ⟨some 4, none⟩ 0 (by decide)⟩,
   (claim6_map_bracket_at Nat Nat natLt exMap 20).2.2.1 2
      (RBNode.mk (20, 2) (some 1) (some 3) none Color.BLACK)
      (by decide) (by decide) (by decide),
   (claim6_map_bracket_at Nat Nat natLt exMap 5).2.2.2 (by decide)⟩

/-- Claim C7: `Multiset::erase(key)` removes at most one element for
every tree and key; and on the concrete spec scenario (insert
`10,20,20,30`): `count(20) = 2`, `erase(20)` returns 1 leaving
`count(20) = 1`, `erase_all(20)` returns 1 leaving `count(20) = 0`,
with the expected remaining contents. -/
theorem claim7_multiset_erase_counts :
    (∀ (α : Type) [DecidableEq α] (cmp : Cmp α) (t t' : Tree α) (k : α)
        (n : Nat), MsetC.eraseKey cmp t k = (t', .ok n) → n ≤ 1) ∧
    (toIterList exM4 = .ok [10, 20, 20, 30] ∧
     MsetC.count natLt exM4 20 = .ok 2 ∧
     (MsetC.eraseKey natLt exM4 20).2 = .ok 1 ∧
     MsetC.count natLt exM5 20 = .ok 1 ∧
     (MsetC.eraseAll exM5 20).2 = .ok 1 ∧
     MsetC.count natLt exM6 20 = .ok 0 ∧
     toIterList exM6 = .ok [10, 30]) :=
  ⟨fun _ _ _ _ _ _ _ H => eraseKey_le_one H, by decide⟩

/-- Witness for claim C7's universal part at a concrete input. -/
theorem claim7_multiset_erase_counts_witness : (1 : Nat) ≤ 1 :=
  claim7_multiset_erase_counts.1 Nat natLt exM4 exM5 20 1 (by decide)

/-- Claim C10: `Multiset::erase(key)` and `erase_all(key)` only
remove `==`-equal elements: every address holding a value that is not
`==`-equal to the key keeps that value.  With the tens comparator on
`{21,25,31}`, `erase(21)` finds the equivalent element 25, compares
it with `==`, removes nothing and returns 0; `erase_all(21)` removes
exactly the `==`-equal element 21. -/
theorem claim10_eq_based_erase :
    (∀ (α : Type) [DecidableEq α] (cmp : Cmp α) (t t' : Tree α) (k : α)
        (n : Nat), MsetC.eraseKey cmp t k = (t', .ok n) →
        ∀ b v, valAt t.heap b = some v → v ≠ k →
          valAt t'.heap b = some v) ∧
    (∀ (α : Type) [DecidableEq α] (t t' : Tree α) (k : α) (n : Nat),
        MsetC.eraseAll t k = (t', .ok n) →
        ∀ b v, valAt t.heap b = some v → v ≠ k →
          valAt t'.heap b = some v) ∧
    (toIterList exW3 = .ok [21, 25, 31] ∧
     MsetC.eraseKey tensCmp exW3 21 = (exW3, .ok 0) ∧
     (MsetC.eraseAll exW3 21).2 = .ok 1 ∧
     toIterList (MsetC.eraseAll exW3 21).1 = .ok [25, 31]) :=
  ⟨fun _ _ _ _ _ _ _ H => eraseKey_valAt H,
   fun _ _ _ _ _ _ H => eraseAll_valAt H,
   by decide⟩

/-- Witness for claim C10's universal parts at a concrete input: the
element 25 survives `erase(21)`. -/
theorem claim10_eq_based_erase_witness : valAt exW3.heap 2 = some 25 :=
  claim10_eq_based_erase.1 Nat tensCmp exW3 exW3 21 0 (by decide) 2 25
    (by decide) (by decide)

/-- Claim C9: the claim says a copy of a non-empty container has the
same in-order value sequence as the source.  The copy constructor's
recursion guard compares source pointers against the destination's
fresh sentinel (`otherNode == this->endNode_`), which never matches,
so the source's threaded sentinel is copied as a regular node: the
copy of `{1,2}` reports size 2 but iterates three values, the last
one the sentinel's uninitialised payload.  The source is a value the
copy never mutates. -/
theorem claim9_copy_constructor_garbage_node :
    exSet12.size = 2 ∧ toIterList exSet12 = .ok [1, 2] ∧
    (Tree.copy exSet12).bind (fun c => .ok c.size) = .ok 2 ∧
    (Tree.copy exSet12).bind toIterList = .ok [1, 2, 0] := by decide

end S21
